import Mathlib

/-!
Verification of the pathfinding engine in
`src/ALG_7_Graphen_Pathfinding_Visualizer/pathfinding_algorithm.py`
(class `Pathfinder`: `dijkstra`, `a_star_search`, `generate_maze`,
`__manhatten_distance`, `__reconstruct_path`).

Embedding notes.
* A vertex is identified by its `(row, col)` position; the engine is kept
  generic over the vertex type `V` and over the neighbor function
  `nbrs : V → List V`, because `vertex.py` (which computes neighbors) is not
  among the sources.  Claims about concrete grids use `gridNeighbors`,
  modelled from the spec.
* Python's `PriorityQueue` of `(key, count, vertex)` tuples is modelled as a
  list of entries from which `popMin` extracts the entry with the smallest
  `(key, count)` pair lexicographically.  Insertion counts are pairwise
  distinct during a run (proved below), so the vertex component is never
  compared, exactly as in the Python tuples.
* `float("inf")` distances are `Option Nat` with `none` as infinity.
* The loops are fueled: `none` means fuel exhaustion, never a result of the
  program itself.
* Vertex state mutations (`make_visiting`, `make_visited`, `make_path`,
  `make_start`, `make_wall`) live in `vertex.py`; the engine's calls to them
  are recorded in an append-only event log `log : List (V × Mark)`, which is
  what the state-marking claims are about.
* `gui.draw(grid)` is an external callback that reads, never writes, engine
  state; it is omitted from the state transitions.
* `pygame.event.get()` draining at the top of each loop body is modelled by
  a list `sigs : List Bool` of per-iteration QUIT signals; `pygame.quit()`
  uninitializes the pygame library (an effect outside the engine) and is
  recorded in the `quitCalled` flag.  It does not alter the engine's control
  flow, matching source lines 54-56 and 116-118.
-/

set_option linter.unusedVariables false
set_option synthInstance.maxSize 1024

namespace Pathfinding

/-- Visual and logical state of a grid cell (the `Vertex` states of spec §3). -/
inductive VState where
  | blank
  | wall
  | startV
  | destV
  | visiting
  | visited
  | path
  deriving DecidableEq, Repr

/-- Which `make_*` mutator of `vertex.py` the engine invoked on a vertex. -/
inductive Mark where
  | visiting
  | visited
  | path
  | startMark
  deriving DecidableEq, Repr

/-- Comparison `a < b` where `b : Option Nat` models a possibly infinite
distance (`none` is `float("inf")`): every finite candidate is below infinity. -/
def costLt (a : Nat) (b : Option Nat) : Bool :=
  match b with
  | none => true
  | some c => a < c

/-- Ordering used by the heap pop on `(key, count, vertex)` entries: smallest
key first, ties broken by the insertion count.  During runs counts are
pairwise distinct, so Python's tuple comparison never reaches the vertex. -/
def entryLe {V : Type} (a b : Nat × Nat × V) : Bool :=
  if a.1 = b.1 then decide (a.2.1 ≤ b.2.1) else decide (a.1 < b.1)

/-- Extraction of the minimal entry of the priority queue (`queue.get()`):
returns the minimal entry and the remaining entries, or `none` when empty. -/
def popMin {V : Type} : List (Nat × Nat × V) → Option ((Nat × Nat × V) × List (Nat × Nat × V))
  | [] => none
  | e :: es =>
    match popMin es with
    | none => some (e, [])
    | some (m, rest) => if entryLe e m then some (e, es) else some (m, e :: rest)

/-- Lookup in a Python dict represented as an association list where the most
recent binding is at the head (`came_from[x]`). -/
def cfFind {V : Type} [DecidableEq V] : List (V × V) → V → Option V
  | [], _ => none
  | (k, v) :: rest, x => if x = k then some v else cfFind rest x

/-- Per-run bookkeeping of `Pathfinder.dijkstra` (source lines 44-51). -/
structure DState (V : Type) where
  count : Nat
  queue : List (Nat × Nat × V)
  visited : List V
  came_from : List (V × V)
  dist : V → Option Nat
  log : List (V × Mark)
  quitCalled : Bool

/-- Body of dijkstra's neighbor loop for one neighbor (source lines 68-82):
`temp_distance = distance[current] + 1`; on strict improvement update
`came_from` and `distance`, and if the neighbor is not in the `visited` set,
insert it into the queue with the next count, add it to `visited`, and call
`make_visiting()` on it unless it is the destination.  `distance[current]`
equal to infinity makes the candidate infinite, so no update happens. -/
def drelax {V : Type} [DecidableEq V] (dest cur : V) (st : DState V) (nb : V) : DState V :=
  match st.dist cur with
  | none => st
  | some dc =>
    if costLt (dc + 1) (st.dist nb) then
      let st1 : DState V :=
        { st with
          came_from := (nb, cur) :: st.came_from
          dist := fun v => if v = nb then some (dc + 1) else st.dist v }
      if nb ∈ st1.visited then st1
      else
        { st1 with
          count := st1.count + 1
          queue := st1.queue ++ [(dc + 1, st1.count + 1, nb)]
          visited := nb :: st1.visited
          log := if nb = dest then st1.log else st1.log ++ [(nb, Mark.visiting)] }
    else st

/-- Loop of `Pathfinder.__reconstruct_path` (source lines 183-195): while the
current vertex has a `came_from` entry, step to the predecessor and call
`make_path()` on it.  Returns the list of `make_path` events in call order. -/
def reconstructLoop {V : Type} [DecidableEq V] (cf : List (V × V)) :
    Nat → V → Option (List (V × Mark))
  | 0, _ => none
  | fuel + 1, cur =>
    match cfFind cf cur with
    | none => some []
    | some p =>
      match reconstructLoop cf fuel p with
      | none => none
      | some marks => some ((p, Mark.path) :: marks)

/-- Main loop of `Pathfinder.dijkstra` (source lines 53-91).  Returns
`(result, pop trace, final state)`.  When the popped vertex equals the
destination the path is reconstructed and `make_start()` is called on the
start vertex; otherwise all neighbors are relaxed, `gui.draw` is invoked
(no engine effect) and `make_visited()` is called on the popped vertex
unless it is the start. -/
def dloop {V : Type} [DecidableEq V] (nbrs : V → List V) (startv dest : V) :
    Nat → List Bool → DState V → Option (Bool × List V × DState V)
  | 0, _, _ => none
  | fuel + 1, sigs, st0 =>
    match popMin st0.queue with
    | none => some (false, [], st0)
    | some (e, rest) =>
      let st1 : DState V := { st0 with quitCalled := st0.quitCalled || sigs.headD false }
      let cur := e.2.2
      let st2 : DState V := { st1 with queue := rest, visited := st1.visited.erase cur }
      if cur = dest then
        match reconstructLoop st2.came_from fuel dest with
        | none => none
        | some marks =>
          some (true, [cur], { st2 with log := st2.log ++ marks ++ [(startv, Mark.startMark)] })
      else
        let st3 := (nbrs cur).foldl (drelax dest cur) st2
        let st4 : DState V :=
          if cur = startv then st3 else { st3 with log := st3.log ++ [(cur, Mark.visited)] }
        match dloop nbrs startv dest fuel sigs.tail st4 with
        | none => none
        | some (b, tr, stf) => some (b, cur :: tr, stf)

/-- Initial dijkstra state (source lines 44-51): count 0, the start vertex in
the queue with key 0 and count 0, `visited` holding the start, empty
`came_from`, distance 0 at the start and infinity elsewhere. -/
def dinit {V : Type} [DecidableEq V] (startv : V) : DState V :=
  { count := 0
    queue := [(0, 0, startv)]
    visited := [startv]
    came_from := []
    dist := fun v => if v = startv then some 0 else none
    log := []
    quitCalled := false }

/-- `Pathfinder.dijkstra` (source lines 35-91). -/
def dijkstra {V : Type} [DecidableEq V] (nbrs : V → List V) (startv dest : V)
    (fuel : Nat) (sigs : List Bool) : Option (Bool × List V × DState V) :=
  dloop nbrs startv dest fuel sigs (dinit startv)

/-- Modelled from the spec: `vertex.py` (neighbor computation) is not among
the sources.  Spec §3 and §4.1 define a vertex's neighbors as the four
axis-aligned adjacent cells within the `n` by `n` bounds that are not Wall
cells, in the deterministic order up, down, left, right. -/
def gridNeighbors (n : Nat) (walls : List (Nat × Nat)) (v : Nat × Nat) :
    List (Nat × Nat) :=
  ((if 1 ≤ v.1 then [(v.1 - 1, v.2)] else []) ++
   (if v.1 + 1 < n then [(v.1 + 1, v.2)] else []) ++
   (if 1 ≤ v.2 then [(v.1, v.2 - 1)] else []) ++
   (if v.2 + 1 < n then [(v.1, v.2 + 1)] else [])).filter (fun w => w ∉ walls)

/-- `Pathfinder.__manhatten_distance` (source lines 168-181) on `(row, col)`
positions: the sum of the absolute coordinate differences. -/
def manhatten_distance (current dest : Nat × Nat) : Nat :=
  ((current.1 : Int) - (dest.1 : Int)).natAbs + ((current.2 : Int) - (dest.2 : Int)).natAbs

/-- Modelled from the spec: `Vertex.get_position` lives in the missing
`vertex.py`; spec §4.1 defines it as the pure accessor returning `(row, col)`.
With vertices identified by their positions it is the identity. -/
def get_position (v : Nat × Nat) : Nat × Nat := v

/-- Per-run bookkeeping of `Pathfinder.a_star_search` (source lines 102-113). -/
structure AState (V : Type) where
  count : Nat
  queue : List (Nat × Nat × V)
  open_set : List V
  came_from : List (V × V)
  g_score : V → Option Nat
  f_score : V → Option Nat
  log : List (V × Mark)
  quitCalled : Bool

/-- Body of the A* neighbor loop for one neighbor (source lines 130-146):
`temp_g_score = g_score[current] + 1`; on strict improvement update
`came_from`, `g_score` and `f_score = temp_g_score + manhatten(neighbor,
destination)`, and if the neighbor is not in `open_set`, insert it into the
queue keyed by its `f_score` with the next count, add it to `open_set`, and
call `make_visiting()` on it unless it is the destination. -/
def arelax {V : Type} [DecidableEq V] (pos : V → Nat × Nat) (dest cur : V)
    (st : AState V) (nb : V) : AState V :=
  match st.g_score cur with
  | none => st
  | some gc =>
    if costLt (gc + 1) (st.g_score nb) then
      let fnew := gc + 1 + manhatten_distance (pos nb) (pos dest)
      let st1 : AState V :=
        { st with
          came_from := (nb, cur) :: st.came_from
          g_score := fun v => if v = nb then some (gc + 1) else st.g_score v
          f_score := fun v => if v = nb then some fnew else st.f_score v }
      if nb ∈ st1.open_set then st1
      else
        { st1 with
          count := st1.count + 1
          queue := st1.queue ++ [(fnew, st1.count + 1, nb)]
          open_set := nb :: st1.open_set
          log := if nb = dest then st1.log else st1.log ++ [(nb, Mark.visiting)] }
    else st

/-- Main loop of `Pathfinder.a_star_search` (source lines 115-155), with the
same shape as `dloop`: pop the minimal entry, return `true` with the
reconstructed path when it is the destination, otherwise relax all
neighbors, draw, and call `make_visited()` unless the popped vertex is the
start. -/
def aloop {V : Type} [DecidableEq V] (pos : V → Nat × Nat) (nbrs : V → List V)
    (startv dest : V) :
    Nat → List Bool → AState V → Option (Bool × List V × AState V)
  | 0, _, _ => none
  | fuel + 1, sigs, st0 =>
    match popMin st0.queue with
    | none => some (false, [], st0)
    | some (e, rest) =>
      let st1 : AState V := { st0 with quitCalled := st0.quitCalled || sigs.headD false }
      let cur := e.2.2
      let st2 : AState V := { st1 with queue := rest, open_set := st1.open_set.erase cur }
      if cur = dest then
        match reconstructLoop st2.came_from fuel dest with
        | none => none
        | some marks =>
          some (true, [cur], { st2 with log := st2.log ++ marks ++ [(startv, Mark.startMark)] })
      else
        let st3 := (nbrs cur).foldl (arelax pos dest cur) st2
        let st4 : AState V :=
          if cur = startv then st3 else { st3 with log := st3.log ++ [(cur, Mark.visited)] }
        match aloop pos nbrs startv dest fuel sigs.tail st4 with
        | none => none
        | some (b, tr, stf) => some (b, cur :: tr, stf)

/-- Initial A* state (source lines 102-113): count 0, the start vertex in the
queue with key 0 and count 0, `g_score` 0 at the start, `f_score` of the
start equal to the Manhattan distance to the destination, infinity
elsewhere, `open_set` holding the start, empty `came_from`. -/
def ainit {V : Type} [DecidableEq V] (pos : V → Nat × Nat) (startv dest : V) : AState V :=
  { count := 0
    queue := [(0, 0, startv)]
    open_set := [startv]
    came_from := []
    g_score := fun v => if v = startv then some 0 else none
    f_score :=
      fun v =>
        if v = startv then some (manhatten_distance (pos startv) (pos dest)) else none
    log := []
    quitCalled := false }

/-- `Pathfinder.a_star_search` (source lines 93-155). -/
def a_star_search {V : Type} [DecidableEq V] (pos : V → Nat × Nat) (nbrs : V → List V)
    (startv dest : V) (fuel : Nat) (sigs : List Bool) :
    Option (Bool × List V × AState V) :=
  aloop pos nbrs startv dest fuel sigs (ainit pos startv dest)

/-- Loop body of `Pathfinder.generate_maze` (source lines 161-166) for one
random pick `p`: if the picked cell is neither the start nor the
destination, `make_wall()` sets its state to Wall; otherwise the pick is
skipped (`make_wall` is modelled from the spec, `vertex.py` being absent
from the sources). -/
def mazeStep (startv dest : Nat × Nat) (st : Nat × Nat → VState) (p : Nat × Nat) :
    Nat × Nat → VState :=
  if p ≠ startv ∧ p ≠ dest then (fun v => if v = p then VState.wall else st v) else st

/-- `Pathfinder.generate_maze` (source lines 157-166) applied to an explicit
list of random `(row, col)` picks: the code draws `round(0.3 * size^2) + 1`
picks via `randrange`; here every finite pick sequence is allowed. -/
def generate_maze (startv dest : Nat × Nat) (picks : List (Nat × Nat))
    (states : Nat × Nat → VState) : Nat × Nat → VState :=
  picks.foldl (mazeStep startv dest) states

/-- Number of `make_path` calls recorded in an event log; for a successful
run this is the number of edges of the reconstructed path, since the loop
of `__reconstruct_path` marks one vertex per `came_from` step. -/
def pathMarkCount {V : Type} (log : List (V × Mark)) : Nat :=
  (log.filter (fun p => p.2 = Mark.path)).length

/-- Wrapper used to run the engine with a missing endpoint: Python's `None`
is one more value of the vertex type, so the vertex type becomes
`Option (Nat × Nat)`.  Accessing `.neighbors` on `None` raises an
`AttributeError` in Python; the `[]` returned here is only relied upon for
statements about the run prefix up to (and including) the pop of `none`,
which precedes that access. -/
def optNeighbors (n : Nat) (walls : List (Nat × Nat)) :
    Option (Nat × Nat) → List (Option (Nat × Nat))
  | none => []
  | some v => (gridNeighbors n walls v).map some

/-- Projection of a dijkstra state that forgets whether `pygame.quit()` was
invoked; everything the algorithm computes lives in the other fields. -/
def dstrip {V : Type} (st : DState V) : DState V := { st with quitCalled := false }

/-- Projection of an A* state that forgets whether `pygame.quit()` was
invoked. -/
def astrip {V : Type} (st : AState V) : AState V := { st with quitCalled := false }

/-- Invariant used for the destination-is-never-mutated claim: no `make_*`
call was ever issued on the destination, and the destination is not a
predecessor value in `came_from` (it is never relaxed from, because popping
it returns at once). -/
def DNoDest {V : Type} (dest : V) (st : DState V) : Prop :=
  (∀ m, (dest, m) ∉ st.log) ∧ dest ∉ st.came_from.map Prod.snd

/-- A* version of the destination invariant. -/
def ANoDest {V : Type} (dest : V) (st : AState V) : Prop :=
  (∀ m, (dest, m) ∉ st.log) ∧ dest ∉ st.came_from.map Prod.snd

/-- Queue well-formedness: every insertion count in the frontier is bounded
by the running counter and the counts are pairwise distinct, so the heap
order never has to compare the vertex components. -/
def QInv {V : Type} (c : Nat) (q : List (Nat × Nat × V)) : Prop :=
  (∀ x ∈ q, x.2.1 ≤ c) ∧ q.Pairwise (fun a b => a.2.1 ≠ b.2.1)

/-- Membership of the n by n grid: both coordinates below n. -/
def inGrid (n : Nat) (v : Nat × Nat) : Prop := v.1 < n ∧ v.2 < n

instance inGrid_decidable (n : Nat) (v : Nat × Nat) : Decidable (inGrid n v) :=
  inferInstanceAs (Decidable (v.1 < n ∧ v.2 < n))

/-- Vertices on some shortest path between `s` and `d` (the axis-aligned box
spanned by the two endpoints), characterized by tightness of the triangle
inequality for the Manhattan distance. -/
def Box (s d v : Nat × Nat) : Prop :=
  manhatten_distance s v + manhatten_distance v d = manhatten_distance s d

/-- Enumeration of the n by n grid cells. -/
def cells (n : Nat) : List (Nat × Nat) :=
  (List.range n).flatMap (fun r => (List.range n).map (fun c => (r, c)))

/-- Termination measure of a dijkstra run: undiscovered cells plus frontier
entries; it strictly decreases at every iteration of the loop. -/
def dmeasure (n : Nat) (st : DState (Nat × Nat)) : Nat :=
  (cells n).countP (fun v => (st.dist v).isNone) + st.queue.length

/-- Loop invariant of `dijkstra` on the wall-free n by n grid with source
`s`: every recorded distance is exact (the Manhattan distance from `s`),
queue keys agree with the recorded distances, the `visited` set mirrors the
queue contents, vertices popped in the past have all neighbors discovered,
`came_from` steps one unit toward `s`, and no `make_path` call happened yet. -/
structure DInv (n : Nat) (s : Nat × Nat) (st : DState (Nat × Nat)) : Prop where
  dist_s : st.dist s = some 0
  dist_exact : ∀ v k, st.dist v = some k → k = manhatten_distance s v ∧ inGrid n v
  queue_exact : ∀ e ∈ st.queue, st.dist e.2.2 = some e.1 ∧ e.1 = manhatten_distance s e.2.2
  sync : ∀ x, x ∈ st.visited ↔ ∃ e ∈ st.queue, e.2.2 = x
  vis_nodup : st.visited.Nodup
  q_nodup : (st.queue.map (fun e => e.2.2)).Nodup
  popped_nbrs : ∀ v, st.dist v ≠ none → v ∉ st.visited →
      ∀ w ∈ gridNeighbors n [] v, st.dist w ≠ none
  cf_s : cfFind st.came_from s = none
  cf_chain : ∀ v k, v ≠ s → st.dist v = some k →
      ∃ p, cfFind st.came_from v = some p ∧
        manhatten_distance s p + 1 = manhatten_distance s v ∧ st.dist p ≠ none
  log_clean : pathMarkCount st.log = 0

/-- A vertex that has been popped from the frontier: discovered but no
longer in the `visited` set mirroring the queue. -/
def Popped {V : Type} (st : DState V) (v : V) : Prop :=
  st.dist v ≠ none ∧ v ∉ st.visited

/-- Invariant holding while the popped vertex `cur` has its neighbor list
relaxed: all `DInv` fields except that `cur` itself, already popped, may
still have undiscovered neighbors, together with the facts that `cur` is
discovered exactly and that all its fresh neighbors sit one unit farther
from the source. -/
structure DMid (n : Nat) (s cur : Nat × Nat) (st : DState (Nat × Nat)) : Prop where
  dist_s : st.dist s = some 0
  dist_exact : ∀ v k, st.dist v = some k → k = manhatten_distance s v ∧ inGrid n v
  queue_exact : ∀ e ∈ st.queue, st.dist e.2.2 = some e.1 ∧ e.1 = manhatten_distance s e.2.2
  sync : ∀ x, x ∈ st.visited ↔ ∃ e ∈ st.queue, e.2.2 = x
  vis_nodup : st.visited.Nodup
  q_nodup : (st.queue.map (fun e => e.2.2)).Nodup
  popped_nbrs : ∀ v, st.dist v ≠ none → v ∉ st.visited → v ≠ cur →
      ∀ w ∈ gridNeighbors n [] v, st.dist w ≠ none
  cf_s : cfFind st.came_from s = none
  cf_chain : ∀ v k, v ≠ s → st.dist v = some k →
      ∃ p, cfFind st.came_from v = some p ∧
        manhatten_distance s p + 1 = manhatten_distance s v ∧ st.dist p ≠ none
  log_clean : pathMarkCount st.log = 0
  cur_dist : st.dist cur = some (manhatten_distance s cur)
  fresh_far : ∀ v, manhatten_distance cur v = 1 → inGrid n v → st.dist v = none →
      manhatten_distance s v = manhatten_distance s cur + 1

/-- A vertex that has been popped from the A* frontier: discovered but no
longer in the `open_set` mirroring the queue. -/
def APopped {V : Type} (st : AState V) (v : V) : Prop :=
  st.g_score v ≠ none ∧ v ∉ st.open_set

/-- Termination measure of an A* run: undiscovered cells plus frontier
entries; it strictly decreases at every iteration of the loop. -/
def ameasure (n : Nat) (st : AState (Nat × Nat)) : Nat :=
  (cells n).countP (fun v => (st.g_score v).isNone) + st.queue.length

/-- Loop invariant of `a_star_search` on the wall-free n by n grid with
source `s` and destination `d`, once the anomalous initial entry (key 0
instead of the start f_score, source line 104) has been popped.  All
recorded g_scores are exact, queue keys equal the exact f_score
`g + manhatten`, counts are distinct and bounded, the box vertices in the
frontier carry the minimal key and pop in FIFO level order, popped vertices
sit below every box frontier level with all neighbors discovered, every box
vertex below the frontier level is discovered, and a box entry survives
until the destination is discovered. -/
structure AInv (n : Nat) (s d : Nat × Nat) (st : AState (Nat × Nat)) : Prop where
  g_s : st.g_score s = some 0
  g_exact : ∀ v k, st.g_score v = some k → k = manhatten_distance s v ∧ inGrid n v
  queue_exact : ∀ e ∈ st.queue,
      st.g_score e.2.2 = some (manhatten_distance s e.2.2) ∧
      e.1 = manhatten_distance s e.2.2 + manhatten_distance e.2.2 d
  sync : ∀ x, x ∈ st.open_set ↔ ∃ e ∈ st.queue, e.2.2 = x
  vis_nodup : st.open_set.Nodup
  q_nodup : (st.queue.map (fun e => e.2.2)).Nodup
  cnt_nodup : (st.queue.map (fun e => e.2.1)).Nodup
  cnt_bound : ∀ e ∈ st.queue, e.2.1 ≤ st.count
  popped_nbrs : ∀ v, st.g_score v ≠ none → v ∉ st.open_set →
      ∀ w ∈ gridNeighbors n [] v, st.g_score w ≠ none
  popped_level : ∀ v, st.g_score v ≠ none → v ∉ st.open_set →
      ∀ e ∈ st.queue, Box s d e.2.2 →
        manhatten_distance s v ≤ manhatten_distance s e.2.2
  mono_level : ∀ e1 ∈ st.queue, ∀ e2 ∈ st.queue, Box s d e1.2.2 → Box s d e2.2.2 →
      e1.2.1 < e2.2.1 → manhatten_distance s e1.2.2 ≤ manhatten_distance s e2.2.2
  window : ∀ e1 ∈ st.queue, ∀ e2 ∈ st.queue, Box s d e1.2.2 → Box s d e2.2.2 →
      manhatten_distance s e2.2.2 ≤ manhatten_distance s e1.2.2 + 1
  disc_prefix : ∀ w, Box s d w → inGrid n w → ∀ e ∈ st.queue, Box s d e.2.2 →
      manhatten_distance s w < manhatten_distance s e.2.2 → st.g_score w ≠ none
  box_live : st.g_score d = none → ∃ e ∈ st.queue, Box s d e.2.2
  cf_s : cfFind st.came_from s = none
  cf_chain : ∀ v k, v ≠ s → st.g_score v = some k →
      ∃ p, cfFind st.came_from v = some p ∧
        manhatten_distance s p + 1 = manhatten_distance s v ∧ st.g_score p ≠ none
  log_clean : pathMarkCount st.log = 0

/-- Invariant holding while the popped vertex `cur` (a box vertex at the
current frontier level) has its neighbor list relaxed by `arelax`. -/
structure AMid (n : Nat) (s d cur : Nat × Nat) (st : AState (Nat × Nat)) : Prop where
  g_s : st.g_score s = some 0
  g_exact : ∀ v k, st.g_score v = some k → k = manhatten_distance s v ∧ inGrid n v
  queue_exact : ∀ e ∈ st.queue,
      st.g_score e.2.2 = some (manhatten_distance s e.2.2) ∧
      e.1 = manhatten_distance s e.2.2 + manhatten_distance e.2.2 d
  sync : ∀ x, x ∈ st.open_set ↔ ∃ e ∈ st.queue, e.2.2 = x
  vis_nodup : st.open_set.Nodup
  q_nodup : (st.queue.map (fun e => e.2.2)).Nodup
  cnt_nodup : (st.queue.map (fun e => e.2.1)).Nodup
  cnt_bound : ∀ e ∈ st.queue, e.2.1 ≤ st.count
  popped_nbrs : ∀ v, st.g_score v ≠ none → v ∉ st.open_set → v ≠ cur →
      ∀ w ∈ gridNeighbors n [] v, st.g_score w ≠ none
  popped_le_cur : ∀ v, st.g_score v ≠ none → v ∉ st.open_set → v ≠ cur →
      manhatten_distance s v ≤ manhatten_distance s cur
  mono_level : ∀ e1 ∈ st.queue, ∀ e2 ∈ st.queue, Box s d e1.2.2 → Box s d e2.2.2 →
      e1.2.1 < e2.2.1 → manhatten_distance s e1.2.2 ≤ manhatten_distance s e2.2.2
  cur_level_le : ∀ e ∈ st.queue, Box s d e.2.2 →
      manhatten_distance s cur ≤ manhatten_distance s e.2.2
  window_cur : ∀ e ∈ st.queue, Box s d e.2.2 →
      manhatten_distance s e.2.2 ≤ manhatten_distance s cur + 1
  disc_all : ∀ w, Box s d w → inGrid n w →
      manhatten_distance s w ≤ manhatten_distance s cur → st.g_score w ≠ none
  cf_s : cfFind st.came_from s = none
  cf_chain : ∀ v k, v ≠ s → st.g_score v = some k →
      ∃ p, cfFind st.came_from v = some p ∧
        manhatten_distance s p + 1 = manhatten_distance s v ∧ st.g_score p ≠ none
  log_clean : pathMarkCount st.log = 0
  cur_g : st.g_score cur = some (manhatten_distance s cur)
  cur_box : Box s d cur
  cur_grid : inGrid n cur
  fresh_far : ∀ v, manhatten_distance cur v = 1 → inGrid n v → st.g_score v = none →
      manhatten_distance s v = manhatten_distance s cur + 1

/-- Sanity check: the full dijkstra run on the 2 by 2 empty grid. -/
theorem dijkstra_two_by_two :
    (dijkstra (gridNeighbors 2 []) ((0, 0) : Nat × Nat) (1, 1) 20 []).map
      (fun r => (r.1, r.2.1)) = some (true, [(0, 0), (1, 0), (0, 1), (1, 1)]) := by
  decide

/-! Helper lemmas. -/

theorem mazeStep_endpoints (startv dest : Nat × Nat) (st : Nat × Nat → VState)
    (p : Nat × Nat) :
    mazeStep startv dest st p startv = st startv ∧ mazeStep startv dest st p dest = st dest := by
  unfold mazeStep
  split
  · next h =>
    refine ⟨?_, ?_⟩
    · exact if_neg (fun hs => h.1 hs.symm)
    · exact if_neg (fun hd => h.2 hd.symm)
  · exact ⟨rfl, rfl⟩

theorem cfFind_mem_values {V : Type} [DecidableEq V] (cf : List (V × V)) (x p : V)
    (h : cfFind cf x = some p) : p ∈ cf.map Prod.snd := by
  induction cf with
  | nil => simp [cfFind] at h
  | cons kv rest ih =>
    obtain ⟨k, v⟩ := kv
    by_cases hk : x = k
    · simp [cfFind, hk] at h
      subst h
      simp
    · simp [cfFind, hk] at h
      simp [ih h]

theorem reconstructLoop_marks {V : Type} [DecidableEq V] (cf : List (V × V)) :
    ∀ (fuel : Nat) (cur : V) (marks : List (V × Mark)),
      reconstructLoop cf fuel cur = some marks →
      ∀ q ∈ marks, q.2 = Mark.path ∧ q.1 ∈ cf.map Prod.snd := by
  intro fuel
  induction fuel with
  | zero => intro cur marks h; simp [reconstructLoop] at h
  | succ f ih =>
    intro cur marks h q hq
    rw [reconstructLoop] at h
    cases hf : cfFind cf cur with
    | none =>
      rw [hf] at h
      cases h
      simp at hq
    | some p =>
      rw [hf] at h
      dsimp only at h
      cases hr : reconstructLoop cf f p with
      | none => rw [hr] at h; cases h
      | some rest =>
        rw [hr] at h
        cases h
        rcases List.mem_cons.mp hq with h | h
        · subst h
          exact ⟨rfl, cfFind_mem_values cf cur p hf⟩
        · exact ih p rest hr q h

theorem reconstructLoop_some_nil {V : Type} [DecidableEq V] (cf : List (V × V))
    (fuel : Nat) (cur : V) (h : reconstructLoop cf fuel cur = some []) :
    cfFind cf cur = none := by
  cases fuel with
  | zero => simp [reconstructLoop] at h
  | succ f =>
    rw [reconstructLoop] at h
    cases hf : cfFind cf cur with
    | none => rfl
    | some p =>
      rw [hf] at h
      dsimp only at h
      cases hr : reconstructLoop cf f p with
      | none => rw [hr] at h; cases h
      | some rest => rw [hr] at h; cases h

theorem reconstructLoop_last {V : Type} [DecidableEq V] (cf : List (V × V)) :
    ∀ (fuel : Nat) (cur : V) (marks : List (V × Mark)),
      reconstructLoop cf fuel cur = some marks →
      ∀ w mk, marks.getLast? = some (w, mk) → cfFind cf w = none := by
  intro fuel
  induction fuel with
  | zero => intro cur marks h; simp [reconstructLoop] at h
  | succ f ih =>
    intro cur marks h w mk hlast
    rw [reconstructLoop] at h
    cases hf : cfFind cf cur with
    | none =>
      rw [hf] at h
      cases h
      simp at hlast
    | some p =>
      rw [hf] at h
      dsimp only at h
      cases hr : reconstructLoop cf f p with
      | none => rw [hr] at h; cases h
      | some rest =>
        rw [hr] at h
        cases h
        cases rest with
        | nil =>
          simp at hlast
          obtain ⟨hw, _⟩ := hlast
          subst hw
          exact reconstructLoop_some_nil cf f p hr
        | cons r rs =>
          rw [List.getLast?_cons_cons] at hlast
          exact ih p (r :: rs) hr w mk hlast

/-! Claim theorems. -/

/-- C8: for every start, destination, sequence of random picks and initial
state map, `generate_maze` leaves the state of the start vertex and of the
destination vertex unchanged — a pick landing on either endpoint is skipped
(the pick sequence is consumed without a retry), so neither endpoint is
ever set to Wall. -/
theorem generate_maze_never_walls_endpoints (startv dest : Nat × Nat)
    (picks : List (Nat × Nat)) (states : Nat × Nat → VState) :
    generate_maze startv dest picks states startv = states startv ∧
    generate_maze startv dest picks states dest = states dest := by
  induction picks generalizing states with
  | nil => exact ⟨rfl, rfl⟩
  | cons p ps ih =>
    have hstep := mazeStep_endpoints startv dest states p
    have hrec := ih (mazeStep startv dest states p)
    have hunfold : generate_maze startv dest (p :: ps) states =
        generate_maze startv dest ps (mazeStep startv dest states p) := rfl
    rw [hunfold]
    exact ⟨hrec.1.trans hstep.1, hrec.2.trans hstep.2⟩

/-- C2: characterization of one step of dijkstra's relaxation (`drelax`,
source lines 68-82).  The candidate cost is `distance[current] + 1` (with an
infinite `distance[current]` no update happens, as in Python where
`inf + 1 = inf` compares below nothing); the neighbor's `distance` and
`came_from` entries are updated if and only if the candidate is strictly
below `distance[neighbor]`, and in that case, when the neighbor is not in
the `visited` frontier set, it is appended to the priority queue with the
incremented count and marked Visiting unless it is the destination. -/
theorem dijkstra_relaxation_characterization {V : Type} [DecidableEq V]
    (dest cur : V) (st : DState V) (nb : V) :
    (st.dist cur = none → drelax dest cur st nb = st) ∧
    (∀ dc, st.dist cur = some dc →
      (costLt (dc + 1) (st.dist nb) = false → drelax dest cur st nb = st) ∧
      (costLt (dc + 1) (st.dist nb) = true →
        (drelax dest cur st nb).dist nb = some (dc + 1) ∧
        (∀ v, v ≠ nb → (drelax dest cur st nb).dist v = st.dist v) ∧
        cfFind (drelax dest cur st nb).came_from nb = some cur ∧
        (∀ v, v ≠ nb → cfFind (drelax dest cur st nb).came_from v = cfFind st.came_from v) ∧
        (nb ∈ st.visited →
          (drelax dest cur st nb).queue = st.queue ∧
          (drelax dest cur st nb).visited = st.visited ∧
          (drelax dest cur st nb).count = st.count ∧
          (drelax dest cur st nb).log = st.log) ∧
        (nb ∉ st.visited →
          (drelax dest cur st nb).queue = st.queue ++ [(dc + 1, st.count + 1, nb)] ∧
          (drelax dest cur st nb).visited = nb :: st.visited ∧
          (drelax dest cur st nb).count = st.count + 1 ∧
          (drelax dest cur st nb).log =
            st.log ++ (if nb = dest then [] else [(nb, Mark.visiting)])))) := by
  refine ⟨fun h => by simp [drelax, h], fun dc hdc => ⟨fun hlt => by simp [drelax, hdc, hlt], ?_⟩⟩
  intro hlt
  by_cases hv : nb ∈ st.visited
  · refine ⟨?_, ?_, ?_, ?_, ?_, fun h => absurd hv h⟩
    · simp [drelax, hdc, hlt, hv]
    · intro v hvne; simp [drelax, hdc, hlt, hv, hvne]
    · simp [drelax, hdc, hlt, hv, cfFind]
    · intro v hvne; simp [drelax, hdc, hlt, hv, cfFind, hvne]
    · intro hmem; refine ⟨?_, ?_, ?_, ?_⟩ <;> simp [drelax, hdc, hlt, hv]
  · refine ⟨?_, ?_, ?_, ?_, fun h => absurd h hv, ?_⟩
    · simp [drelax, hdc, hlt, hv]
    · intro v hvne; simp [drelax, hdc, hlt, hv, hvne]
    · simp [drelax, hdc, hlt, hv, cfFind]
    · intro v hvne; simp [drelax, hdc, hlt, hv, cfFind, hvne]
    · intro hmem
      refine ⟨?_, ?_, ?_, ?_⟩ <;> simp [drelax, hdc, hlt, hv]
      split <;> simp

/-- C2 witness: concrete instantiation of the relaxation characterization on
a 2 by 2 grid where the neighbor is freshly discovered. -/
theorem dijkstra_relaxation_characterization_witness :
    (dinit ((0, 0) : Nat × Nat)).dist (0, 0) = some 0 ∧
    costLt (0 + 1) ((dinit ((0, 0) : Nat × Nat)).dist (1, 0)) = true ∧
    (drelax ((1, 1) : Nat × Nat) (0, 0) (dinit (0, 0)) (1, 0)).dist (1, 0) = some (0 + 1) :=
  ⟨by decide, by decide,
    (((dijkstra_relaxation_characterization ((1, 1) : Nat × Nat) (0, 0)
      (dinit (0, 0)) (1, 0)).2 0 (by decide)).2 (by decide)).1⟩

/-- C3 counterexample: in `a_star_search` the start vertex is inserted into
the frontier with priority key 0 (source line 104), while its `f_score` is
the Manhattan distance to the destination (source lines 109-110); with
start (0,0) and destination (1,1) the inserted key 0 differs from
`f_score[start] = 2`. -/
theorem a_star_initial_key_not_f_score :
    (0, 0, ((0, 0) : Nat × Nat)) ∈ (ainit get_position ((0, 0) : Nat × Nat) (1, 1)).queue ∧
    (ainit get_position ((0, 0) : Nat × Nat) (1, 1)).f_score (0, 0) = some 2 ∧
    (0 : Nat) ≠ 2 := by
  decide

/-- C3 amended: every vertex inserted into the frontier by the A* relaxation
step carries priority key `f_score[vertex] = g_score[vertex] + h(vertex,
destination)` with `h` the Manhattan distance of the positions; the initial
insertion of the start vertex instead uses key 0 while `f_score[start]` is
the Manhattan distance from start to destination (so the two agree only
when that distance is 0). -/
theorem a_star_inserted_key_is_f_score {V : Type} [DecidableEq V]
    (pos : V → Nat × Nat) (startv dest cur : V) (st : AState V) (nb : V) :
    (∀ e ∈ (arelax pos dest cur st nb).queue,
      e ∈ st.queue ∨
        (e.2.2 = nb ∧ (arelax pos dest cur st nb).f_score nb = some e.1 ∧
          ∀ gc, st.g_score cur = some gc →
            e.1 = gc + 1 + manhatten_distance (pos nb) (pos dest))) ∧
    (ainit pos startv dest).queue = [(0, 0, startv)] ∧
    (ainit pos startv dest).f_score startv =
      some (manhatten_distance (pos startv) (pos dest)) := by
  refine ⟨?_, rfl, by simp [ainit]⟩
  intro e he
  unfold arelax at he ⊢
  cases hgc : st.g_score cur with
  | none => simp [hgc] at he; exact Or.inl he
  | some gc =>
    simp only [hgc] at he ⊢
    by_cases hlt : costLt (gc + 1) (st.g_score nb) = true
    · simp only [hlt, if_true] at he ⊢
      by_cases hmem : nb ∈ st.open_set
      · simp [hmem] at he ⊢; exact Or.inl he
      · simp only [hmem, if_neg, if_false] at he ⊢
        rcases List.mem_append.mp he with h | h
        · exact Or.inl h
        · rcases List.mem_singleton.mp h with rfl
          refine Or.inr ⟨rfl, by simp, fun gc' hgc' => ?_⟩
          have hg : gc = gc' := Option.some.inj hgc'
          subst hg
          rfl
    · simp only [Bool.not_eq_true] at hlt
      simp [hlt] at he
      exact Or.inl he

/-- C3 amended witness: on the 2 by 2 grid the relaxation of neighbor (1,0)
of the start inserts the entry with key 2 = 1 + manhattan((1,0),(1,1)). -/
theorem a_star_inserted_key_is_f_score_witness :
    (2, 1, ((1, 0) : Nat × Nat)) ∈
      (arelax get_position ((1, 1) : Nat × Nat) (0, 0)
        (ainit get_position (0, 0) (1, 1)) (1, 0)).queue ∧
    ((2, 1, ((1, 0) : Nat × Nat)) ∈ (ainit get_position ((0, 0) : Nat × Nat) (1, 1)).queue ∨
      (((1, 0) : Nat × Nat) = (1, 0) ∧
        (arelax get_position ((1, 1) : Nat × Nat) (0, 0)
          (ainit get_position (0, 0) (1, 1)) (1, 0)).f_score (1, 0) = some 2 ∧
        ∀ gc, (ainit get_position ((0, 0) : Nat × Nat) (1, 1)).g_score (0, 0) = some gc →
          2 = gc + 1 + manhatten_distance (get_position (1, 0)) (get_position (1, 1)))) :=
  ⟨by decide,
    (a_star_inserted_key_is_f_score get_position ((0, 0) : Nat × Nat) (1, 1) (0, 0)
      (ainit get_position (0, 0) (1, 1)) (1, 0)).1 (2, 1, (1, 0)) (by decide)⟩

/-- Sanity check: the full A* run on the 2 by 2 empty grid. -/
theorem a_star_two_by_two :
    (a_star_search get_position (gridNeighbors 2 []) ((0, 0) : Nat × Nat) (1, 1) 20 []).map
      (fun r => (r.1, r.2.1, pathMarkCount r.2.2.log)) =
      some (true, [(0, 0), (1, 0), (0, 1), (1, 1)], 2) := by
  decide

/-- C5 counterexample: with `came_from = [destination ↦ start]` (start
`(0,0)`, destination `(1,1)`), path reconstruction calls `make_path()` on
`(0,0)` — the vertex with no `came_from` entry, i.e. the start — refuting
the claim that the start vertex is never marked during reconstruction (the
caller merely overwrites the mark with `make_start()` afterwards). -/
theorem reconstruct_marks_the_start :
    reconstructLoop [(((1, 1) : Nat × Nat), ((0, 0) : Nat × Nat))] 5 (1, 1) =
      some [((0, 0), Mark.path)] ∧
    cfFind [(((1, 1) : Nat × Nat), ((0, 0) : Nat × Nat))] (0, 0) = none := by
  decide

/-- C5 amended: path reconstruction marks, as Path, exactly the vertices
reached by following `came_from` backward from the destination — every mark
is a Path mark on a `came_from` value, the destination itself is never
marked whenever it is not a `came_from` value (which holds in engine runs),
and the last vertex marked is the chain's end with no `came_from` entry
(the start), whose Path mark the caller then overwrites with `make_start`. -/
theorem reconstruct_marks_characterization {V : Type} [DecidableEq V]
    (cf : List (V × V)) (fuel : Nat) (dest : V) (marks : List (V × Mark))
    (h : reconstructLoop cf fuel dest = some marks) :
    (∀ q ∈ marks, q.2 = Mark.path ∧ q.1 ∈ cf.map Prod.snd) ∧
    (dest ∉ cf.map Prod.snd → ∀ m, (dest, m) ∉ marks) ∧
    (∀ w mk, marks.getLast? = some (w, mk) → cfFind cf w = none) := by
  refine ⟨reconstructLoop_marks cf fuel dest marks h, ?_, reconstructLoop_last cf fuel dest marks h⟩
  intro hdest m hmem
  exact hdest ((reconstructLoop_marks cf fuel dest marks h (dest, m) hmem).2)

/-- C5 amended witness: concrete two-step chain `(2,2) ↦ (1,1) ↦ (0,0)`. -/
theorem reconstruct_marks_characterization_witness :
    reconstructLoop [(((2, 2) : Nat × Nat), ((1, 1) : Nat × Nat)), ((1, 1), (0, 0))] 9 (2, 2) =
      some [((1, 1), Mark.path), ((0, 0), Mark.path)] ∧
    ((∀ q ∈ [(((1, 1) : Nat × Nat), Mark.path), ((0, 0), Mark.path)],
        q.2 = Mark.path ∧
          q.1 ∈ ([(((2, 2) : Nat × Nat), ((1, 1) : Nat × Nat)), ((1, 1), (0, 0))]).map Prod.snd) ∧
      (((2, 2) : Nat × Nat) ∉
          ([(((2, 2) : Nat × Nat), ((1, 1) : Nat × Nat)), ((1, 1), (0, 0))]).map Prod.snd →
        ∀ m, (((2, 2) : Nat × Nat), m) ∉ [(((1, 1) : Nat × Nat), Mark.path), ((0, 0), Mark.path)]) ∧
      (∀ w mk,
        ([(((1, 1) : Nat × Nat), Mark.path), ((0, 0), Mark.path)]).getLast? = some (w, mk) →
          cfFind [(((2, 2) : Nat × Nat), ((1, 1) : Nat × Nat)), ((1, 1), (0, 0))] w = none)) :=
  ⟨by decide,
    reconstruct_marks_characterization
      [(((2, 2) : Nat × Nat), ((1, 1) : Nat × Nat)), ((1, 1), (0, 0))] 9 (2, 2)
      [((1, 1), Mark.path), ((0, 0), Mark.path)] (by decide)⟩

/-- C6 counterexample: invoked with an absent start vertex (`None`) on a
2 by 2 grid, `dijkstra` performs no endpoint validation: it enters the
traversal loop and pops `none` from the frontier (the pop trace is
`[none]`, not empty), then finishes with the ordinary boolean result — no
`MissingEndpoint` rejection before the loop exists anywhere in the code. -/
theorem dijkstra_missing_start_enters_loop :
    (dijkstra (optNeighbors 2 []) (none : Option (Nat × Nat)) (some (1, 1)) 20 []).map
      (fun r => (r.1, r.2.1)) = some (false, [none]) := by
  decide

/-- C6 amended: the engine performs no validation of its endpoints — with
`start = None` the initial state is built around `None` (`distance[None] =
0`, `(0, 0, None)` in the frontier) and the traversal loop is entered, the
first pop returning `None` (at which point Python fails mid-run with an
`AttributeError` on `current.neighbors`); rejection before the loop never
happens.  The GUI, not the engine, guards invocation by requiring both
endpoints to be set. -/
theorem dijkstra_no_endpoint_validation (n : Nat) (walls : List (Nat × Nat))
    (d : Nat × Nat) (fuel : Nat) (sigs : List Bool) :
    (dinit (none : Option (Nat × Nat))).dist none = some 0 ∧
    (dinit (none : Option (Nat × Nat))).queue = [(0, 0, none)] ∧
    (dijkstra (optNeighbors n walls) (none : Option (Nat × Nat)) (some d) (fuel + 2) sigs).map
      (fun r => (r.1, r.2.1)) = some (false, [none]) := by
  refine ⟨by simp [dinit], rfl, ?_⟩
  simp [dijkstra, dloop, dinit, popMin, optNeighbors]

theorem drelax_quitCalled {V : Type} [DecidableEq V] (dest cur : V) (st : DState V)
    (nb : V) (c : Bool) :
    drelax dest cur { st with quitCalled := c } nb =
      { drelax dest cur st nb with quitCalled := c } := by
  unfold drelax
  rw [show ({ st with quitCalled := c } : DState V).dist = st.dist from rfl]
  cases h : st.dist cur with
  | none => rfl
  | some dc =>
    dsimp only
    by_cases hlt : costLt (dc + 1) (st.dist nb) = true
    · simp only [hlt, if_true]
      by_cases hv : nb ∈ st.visited
      · simp [hv]
      · simp [hv]
    · simp only [Bool.not_eq_true] at hlt
      simp [hlt]

theorem foldl_drelax_quitCalled {V : Type} [DecidableEq V] (dest cur : V) (c : Bool) :
    ∀ (l : List V) (st : DState V),
      l.foldl (drelax dest cur) { st with quitCalled := c } =
        { l.foldl (drelax dest cur) st with quitCalled := c } := by
  intro l
  induction l with
  | nil => intro st; rfl
  | cons x xs ih =>
    intro st
    rw [List.foldl_cons, List.foldl_cons, drelax_quitCalled, ih]

theorem dloop_succ {V : Type} [DecidableEq V] (nbrs : V → List V) (startv dest : V)
    (fuel : Nat) (sigs : List Bool) (st0 : DState V) :
    dloop nbrs startv dest (fuel + 1) sigs st0 =
      match popMin st0.queue with
      | none => some (false, [], st0)
      | some (e, rest) =>
        let st1 : DState V := { st0 with quitCalled := st0.quitCalled || sigs.headD false }
        let cur := e.2.2
        let st2 : DState V := { st1 with queue := rest, visited := st1.visited.erase cur }
        if cur = dest then
          match reconstructLoop st2.came_from fuel dest with
          | none => none
          | some marks =>
            some (true, [cur], { st2 with log := st2.log ++ marks ++ [(startv, Mark.startMark)] })
        else
          let st3 := (nbrs cur).foldl (drelax dest cur) st2
          let st4 : DState V :=
            if cur = startv then st3 else { st3 with log := st3.log ++ [(cur, Mark.visited)] }
          match dloop nbrs startv dest fuel sigs.tail st4 with
          | none => none
          | some (b, tr, stf) => some (b, cur :: tr, stf) := rfl

theorem dloop_sigs_irrelevant {V : Type} [DecidableEq V] (nbrs : V → List V)
    (startv dest : V) :
    ∀ (fuel : Nat) (sigs sigs' : List Bool) (st : DState V) (c : Bool),
      (dloop nbrs startv dest fuel sigs st).map (fun r => (r.1, r.2.1, dstrip r.2.2)) =
        (dloop nbrs startv dest fuel sigs' { st with quitCalled := c }).map
          (fun r => (r.1, r.2.1, dstrip r.2.2)) := by
  intro fuel
  induction fuel with
  | zero => intro sigs sigs' st c; rfl
  | succ f ih =>
    intro sigs sigs' st c
    rw [dloop_succ, dloop_succ]
    cases hq : popMin st.queue with
    | none =>
      have hq' : popMin (DState.mk st.count st.queue st.visited st.came_from st.dist st.log
          c).queue = none := hq
      simp only [hq, hq', Option.map_some]
      simp [dstrip]
    | some pr =>
      obtain ⟨e, rest⟩ := pr
      have hq' : popMin (DState.mk st.count st.queue st.visited st.came_from st.dist st.log
          c).queue = some (e, rest) := hq
      simp only [hq, hq', Option.map_some]
      by_cases hd : e.2.2 = dest
      · simp only [hd, if_true]
        cases hr : reconstructLoop st.came_from f dest with
        | none => simp [hr]
        | some marks => simp [hr, dstrip]
      · simp only [hd, if_false]
        have hcomm :
            ({ st with
                quitCalled := c || sigs'.headD false
                queue := rest
                visited := st.visited.erase e.2.2 } : DState V) =
              { ({ st with
                    quitCalled := st.quitCalled || sigs.headD false
                    queue := rest
                    visited := st.visited.erase e.2.2 } : DState V) with
                quitCalled := c || sigs'.headD false } := rfl
        rw [hcomm, foldl_drelax_quitCalled]
        set stMid := (nbrs e.2.2).foldl (drelax dest e.2.2)
          { st with
            quitCalled := st.quitCalled || sigs.headD false
            queue := rest
            visited := st.visited.erase e.2.2 } with hmid
        by_cases hs : e.2.2 = startv
        · simp only [hs, if_true]
          have hih := ih sigs.tail sigs'.tail stMid (c || sigs'.headD false)
          cases h1 : dloop nbrs startv dest f sigs.tail stMid with
          | none =>
            rw [h1] at hih
            cases h2 : dloop nbrs startv dest f sigs'.tail
                { stMid with quitCalled := c || sigs'.headD false } with
            | none => rfl
            | some r2 => rw [h2] at hih; simp at hih
          | some r1 =>
            rw [h1] at hih
            cases h2 : dloop nbrs startv dest f sigs'.tail
                { stMid with quitCalled := c || sigs'.headD false } with
            | none => rw [h2] at hih; simp at hih
            | some r2 =>
              rw [h2] at hih
              simp only [Option.map_some', Option.some.injEq] at hih ⊢
              obtain ⟨r1a, r1b, r1c⟩ := r1
              obtain ⟨r2a, r2b, r2c⟩ := r2
              have e1 := congrArg (fun x => x.1) hih
              have e2 := congrArg (fun x => x.2.1) hih
              have e3 := congrArg (fun x => x.2.2) hih
              dsimp only at e1 e2 e3
              rw [e1, e2, e3]
        · simp only [hs, if_false]
          have hcomm2 :
              ({ ({ stMid with quitCalled := c || sigs'.headD false } : DState V) with
                  log := ({ stMid with
                    quitCalled := c || sigs'.headD false } : DState V).log ++
                      [(e.2.2, Mark.visited)] } : DState V) =
                { ({ stMid with
                      log := stMid.log ++ [(e.2.2, Mark.visited)] } : DState V) with
                  quitCalled := c || sigs'.headD false } := rfl
          rw [hcomm2]
          set stNext := ({ stMid with
            log := stMid.log ++ [(e.2.2, Mark.visited)] } : DState V) with hnext
          have hih := ih sigs.tail sigs'.tail stNext (c || sigs'.headD false)
          cases h1 : dloop nbrs startv dest f sigs.tail stNext with
          | none =>
            rw [h1] at hih
            cases h2 : dloop nbrs startv dest f sigs'.tail
                { stNext with quitCalled := c || sigs'.headD false } with
            | none => rfl
            | some r2 => rw [h2] at hih; simp at hih
          | some r1 =>
            rw [h1] at hih
            cases h2 : dloop nbrs startv dest f sigs'.tail
                { stNext with quitCalled := c || sigs'.headD false } with
            | none => rw [h2] at hih; simp at hih
            | some r2 =>
              rw [h2] at hih
              simp only [Option.map_some', Option.some.injEq] at hih ⊢
              obtain ⟨r1a, r1b, r1c⟩ := r1
              obtain ⟨r2a, r2b, r2c⟩ := r2
              have e1 := congrArg (fun x => x.1) hih
              have e2 := congrArg (fun x => x.2.1) hih
              have e3 := congrArg (fun x => x.2.2) hih
              dsimp only at e1 e2 e3
              rw [e1, e2, e3]

theorem arelax_quitCalled {V : Type} [DecidableEq V] (pos : V → Nat × Nat)
    (dest cur : V) (st : AState V) (nb : V) (c : Bool) :
    arelax pos dest cur { st with quitCalled := c } nb =
      { arelax pos dest cur st nb with quitCalled := c } := by
  unfold arelax
  rw [show ({ st with quitCalled := c } : AState V).g_score = st.g_score from rfl]
  cases h : st.g_score cur with
  | none => rfl
  | some gc =>
    dsimp only
    by_cases hlt : costLt (gc + 1) (st.g_score nb) = true
    · simp only [hlt, if_true]
      by_cases hv : nb ∈ st.open_set
      · simp [hv]
      · simp [hv]
    · simp only [Bool.not_eq_true] at hlt
      simp [hlt]

theorem foldl_arelax_quitCalled {V : Type} [DecidableEq V] (pos : V → Nat × Nat)
    (dest cur : V) (c : Bool) :
    ∀ (l : List V) (st : AState V),
      l.foldl (arelax pos dest cur) { st with quitCalled := c } =
        { l.foldl (arelax pos dest cur) st with quitCalled := c } := by
  intro l
  induction l with
  | nil => intro st; rfl
  | cons x xs ih =>
    intro st
    rw [List.foldl_cons, List.foldl_cons, arelax_quitCalled, ih]

theorem aloop_succ {V : Type} [DecidableEq V] (pos : V → Nat × Nat) (nbrs : V → List V)
    (startv dest : V) (fuel : Nat) (sigs : List Bool) (st0 : AState V) :
    aloop pos nbrs startv dest (fuel + 1) sigs st0 =
      match popMin st0.queue with
      | none => some (false, [], st0)
      | some (e, rest) =>
        let st1 : AState V := { st0 with quitCalled := st0.quitCalled || sigs.headD false }
        let cur := e.2.2
        let st2 : AState V := { st1 with queue := rest, open_set := st1.open_set.erase cur }
        if cur = dest then
          match reconstructLoop st2.came_from fuel dest with
          | none => none
          | some marks =>
            some (true, [cur], { st2 with log := st2.log ++ marks ++ [(startv, Mark.startMark)] })
        else
          let st3 := (nbrs cur).foldl (arelax pos dest cur) st2
          let st4 : AState V :=
            if cur = startv then st3 else { st3 with log := st3.log ++ [(cur, Mark.visited)] }
          match aloop pos nbrs startv dest fuel sigs.tail st4 with
          | none => none
          | some (b, tr, stf) => some (b, cur :: tr, stf) := rfl

theorem aloop_sigs_irrelevant {V : Type} [DecidableEq V] (pos : V → Nat × Nat)
    (nbrs : V → List V) (startv dest : V) :
    ∀ (fuel : Nat) (sigs sigs' : List Bool) (st : AState V) (c : Bool),
      (aloop pos nbrs startv dest fuel sigs st).map (fun r => (r.1, r.2.1, astrip r.2.2)) =
        (aloop pos nbrs startv dest fuel sigs' { st with quitCalled := c }).map
          (fun r => (r.1, r.2.1, astrip r.2.2)) := by
  intro fuel
  induction fuel with
  | zero => intro sigs sigs' st c; rfl
  | succ f ih =>
    intro sigs sigs' st c
    rw [aloop_succ, aloop_succ]
    cases hq : popMin st.queue with
    | none =>
      have hq' : popMin (AState.mk st.count st.queue st.open_set st.came_from st.g_score
          st.f_score st.log c).queue = none := hq
      simp only [hq, hq', Option.map_some]
      simp [astrip]
    | some pr =>
      obtain ⟨e, rest⟩ := pr
      have hq' : popMin (AState.mk st.count st.queue st.open_set st.came_from st.g_score
          st.f_score st.log c).queue = some (e, rest) := hq
      simp only [hq, hq', Option.map_some]
      by_cases hd : e.2.2 = dest
      · simp only [hd, if_true]
        cases hr : reconstructLoop st.came_from f dest with
        | none => simp [hr]
        | some marks => simp [hr, astrip]
      · simp only [hd, if_false]
        have hcomm :
            ({ st with
                quitCalled := c || sigs'.headD false
                queue := rest
                open_set := st.open_set.erase e.2.2 } : AState V) =
              { ({ st with
                    quitCalled := st.quitCalled || sigs.headD false
                    queue := rest
                    open_set := st.open_set.erase e.2.2 } : AState V) with
                quitCalled := c || sigs'.headD false } := rfl
        rw [hcomm, foldl_arelax_quitCalled]
        set stMid := (nbrs e.2.2).foldl (arelax pos dest e.2.2)
          { st with
            quitCalled := st.quitCalled || sigs.headD false
            queue := rest
            open_set := st.open_set.erase e.2.2 } with hmid
        by_cases hs : e.2.2 = startv
        · simp only [hs, if_true]
          have hih := ih sigs.tail sigs'.tail stMid (c || sigs'.headD false)
          cases h1 : aloop pos nbrs startv dest f sigs.tail stMid with
          | none =>
            rw [h1] at hih
            cases h2 : aloop pos nbrs startv dest f sigs'.tail
                { stMid with quitCalled := c || sigs'.headD false } with
            | none => rfl
            | some r2 => rw [h2] at hih; simp at hih
          | some r1 =>
            rw [h1] at hih
            cases h2 : aloop pos nbrs startv dest f sigs'.tail
                { stMid with quitCalled := c || sigs'.headD false } with
            | none => rw [h2] at hih; simp at hih
            | some r2 =>
              rw [h2] at hih
              simp only [Option.map_some', Option.some.injEq] at hih ⊢
              obtain ⟨r1a, r1b, r1c⟩ := r1
              obtain ⟨r2a, r2b, r2c⟩ := r2
              have e1 := congrArg (fun x => x.1) hih
              have e2 := congrArg (fun x => x.2.1) hih
              have e3 := congrArg (fun x => x.2.2) hih
              dsimp only at e1 e2 e3
              rw [e1, e2, e3]
        · simp only [hs, if_false]
          have hcomm2 :
              ({ ({ stMid with quitCalled := c || sigs'.headD false } : AState V) with
                  log := ({ stMid with
                    quitCalled := c || sigs'.headD false } : AState V).log ++
                      [(e.2.2, Mark.visited)] } : AState V) =
                { ({ stMid with
                      log := stMid.log ++ [(e.2.2, Mark.visited)] } : AState V) with
                  quitCalled := c || sigs'.headD false } := rfl
          rw [hcomm2]
          set stNext := ({ stMid with
            log := stMid.log ++ [(e.2.2, Mark.visited)] } : AState V) with hnext
          have hih := ih sigs.tail sigs'.tail stNext (c || sigs'.headD false)
          cases h1 : aloop pos nbrs startv dest f sigs.tail stNext with
          | none =>
            rw [h1] at hih
            cases h2 : aloop pos nbrs startv dest f sigs'.tail
                { stNext with quitCalled := c || sigs'.headD false } with
            | none => rfl
            | some r2 => rw [h2] at hih; simp at hih
          | some r1 =>
            rw [h1] at hih
            cases h2 : aloop pos nbrs startv dest f sigs'.tail
                { stNext with quitCalled := c || sigs'.headD false } with
            | none => rw [h2] at hih; simp at hih
            | some r2 =>
              rw [h2] at hih
              simp only [Option.map_some', Option.some.injEq] at hih ⊢
              obtain ⟨r1a, r1b, r1c⟩ := r1
              obtain ⟨r2a, r2b, r2c⟩ := r2
              have e1 := congrArg (fun x => x.1) hih
              have e2 := congrArg (fun x => x.2.1) hih
              have e3 := congrArg (fun x => x.2.2) hih
              dsimp only at e1 e2 e3
              rw [e1, e2, e3]

/-- C7 counterexample: on the 2 by 2 empty grid with a QUIT signal observed
at the top of the very first iteration, `dijkstra` does not abort: pygame is
shut down (`quitCalled = true`) yet four frontier pops still happen and the
run finishes with the definitive result `True` — there is no Cancelled
outcome, the function only ever returns a boolean. -/
theorem quit_signal_does_not_abort :
    (dijkstra (gridNeighbors 2 []) ((0, 0) : Nat × Nat) (1, 1) 20 [true]).map
      (fun r => (r.1, r.2.1.length, r.2.2.quitCalled)) = some (true, 4, true) := by
  decide

/-- C7 amended: a QUIT signal drained at the top of an iteration only calls
`pygame.quit()` (shutting the pygame library down, after which its next use
fails outside the engine's logic); the traversal itself continues — both
search loops return, for any signal sequence, the same result, the same pop
trace and the same final bookkeeping (up to the `quitCalled` flag) as a run
with no signals at all, and their only outcomes are `True` and `False`. -/
theorem quit_signal_ignored_by_search {V : Type} [DecidableEq V]
    (pos : V → Nat × Nat) (nbrs : V → List V) (startv dest : V) (fuel : Nat)
    (sigs sigs' : List Bool) :
    (dijkstra nbrs startv dest fuel sigs).map (fun r => (r.1, r.2.1, dstrip r.2.2)) =
      (dijkstra nbrs startv dest fuel sigs').map (fun r => (r.1, r.2.1, dstrip r.2.2)) ∧
    (a_star_search pos nbrs startv dest fuel sigs).map
        (fun r => (r.1, r.2.1, astrip r.2.2)) =
      (a_star_search pos nbrs startv dest fuel sigs').map
        (fun r => (r.1, r.2.1, astrip r.2.2)) := by
  constructor
  · have h := dloop_sigs_irrelevant nbrs startv dest fuel sigs sigs' (dinit startv) false
    have hd : ({ dinit startv with quitCalled := false } : DState V) = dinit startv := rfl
    rw [hd] at h
    exact h
  · have h := aloop_sigs_irrelevant pos nbrs startv dest fuel sigs sigs'
      (ainit pos startv dest) false
    have ha : ({ ainit pos startv dest with quitCalled := false } : AState V) =
      ainit pos startv dest := rfl
    rw [ha] at h
    exact h

theorem popMin_eq_none {V : Type} (q : List (Nat × Nat × V)) :
    popMin q = none ↔ q = [] := by
  cases q with
  | nil => simp [popMin]
  | cons e es =>
    simp only [popMin]
    cases h : popMin es with
    | none => simp
    | some pr =>
      obtain ⟨m, rest⟩ := pr
      by_cases hle : entryLe e m = true
      · simp [hle]
      · simp only [Bool.not_eq_true] at hle
        simp [hle]

theorem dloop_terminal {V : Type} [DecidableEq V] (nbrs : V → List V)
    (startv dest : V) :
    ∀ (fuel : Nat) (sigs : List Bool) (st : DState V),
      ∀ p ∈ (dloop nbrs startv dest fuel sigs st).map (fun r => (r.1, r.2.1, r.2.2.queue)),
        (p.1 = true ↔ dest ∈ p.2.1) ∧
        (p.1 = true → p.2.1.getLast? = some dest) ∧
        (p.1 = false → p.2.2 = []) := by
  intro fuel
  induction fuel with
  | zero =>
    intro sigs st p hp
    simp [dloop] at hp
  | succ f ih =>
    intro sigs st p hp
    rw [dloop_succ] at hp
    cases hq : popMin st.queue with
    | none =>
      simp only [hq, Option.map_some', Option.mem_def, Option.some.injEq] at hp
      subst hp
      refine ⟨by simp, by simp, fun _ => ?_⟩
      exact (popMin_eq_none st.queue).mp hq
    | some pr =>
      obtain ⟨e, rest⟩ := pr
      simp only [hq] at hp
      by_cases hd : e.2.2 = dest
      · simp only [hd, if_true] at hp
        cases hr : reconstructLoop st.came_from f dest with
        | none => simp [hr] at hp
        | some marks =>
          simp only [hr, Option.map_some', Option.mem_def, Option.some.injEq] at hp
          subst hp
          refine ⟨by simp [hd], fun _ => by simp [hd], fun hf => by cases hf⟩
      · simp only [hd, if_false] at hp
        cases h1 : dloop nbrs startv dest f sigs.tail
            ((fun st4 => st4)
              (if e.2.2 = startv then
                (nbrs e.2.2).foldl (drelax dest e.2.2)
                  { st with
                    quitCalled := st.quitCalled || sigs.headD false
                    queue := rest
                    visited := st.visited.erase e.2.2 }
              else
                { (nbrs e.2.2).foldl (drelax dest e.2.2)
                    { st with
                      quitCalled := st.quitCalled || sigs.headD false
                      queue := rest
                      visited := st.visited.erase e.2.2 } with
                  log := ((nbrs e.2.2).foldl (drelax dest e.2.2)
                    { st with
                      quitCalled := st.quitCalled || sigs.headD false
                      queue := rest
                      visited := st.visited.erase e.2.2 }).log ++
                    [(e.2.2, Mark.visited)] })) with
        | none => rw [h1] at hp; cases hp
        | some r =>
          rw [h1] at hp
          simp only [Option.map_some', Option.mem_def, Option.some.injEq] at hp
          subst hp
          have hr := ih sigs.tail _ (r.1, r.2.1, r.2.2.queue) (by rw [h1]; rfl)
          obtain ⟨hiff, hlast, hqueue⟩ := hr
          refine ⟨?_, ?_, hqueue⟩
          · rw [hiff]
            constructor
            · intro h; exact List.mem_cons_of_mem _ h
            · intro h
              rcases List.mem_cons.mp h with h | h
              · exact absurd h.symm hd
              · exact h
          · intro htrue
            dsimp only at htrue ⊢
            have hmem : dest ∈ r.2.1 := hiff.mp htrue
            have hl := hlast htrue
            cases htl : r.2.1 with
            | nil => rw [htl] at hmem; cases hmem
            | cons x xs =>
              rw [List.getLast?_cons_cons]
              dsimp only at hl
              rw [htl] at hl
              exact hl

theorem aloop_terminal {V : Type} [DecidableEq V] (pos : V → Nat × Nat)
    (nbrs : V → List V) (startv dest : V) :
    ∀ (fuel : Nat) (sigs : List Bool) (st : AState V),
      ∀ p ∈ (aloop pos nbrs startv dest fuel sigs st).map
          (fun r => (r.1, r.2.1, r.2.2.queue)),
        (p.1 = true ↔ dest ∈ p.2.1) ∧
        (p.1 = true → p.2.1.getLast? = some dest) ∧
        (p.1 = false → p.2.2 = []) := by
  intro fuel
  induction fuel with
  | zero =>
    intro sigs st p hp
    simp [aloop] at hp
  | succ f ih =>
    intro sigs st p hp
    rw [aloop_succ] at hp
    cases hq : popMin st.queue with
    | none =>
      simp only [hq, Option.map_some', Option.mem_def, Option.some.injEq] at hp
      subst hp
      refine ⟨by simp, by simp, fun _ => ?_⟩
      exact (popMin_eq_none st.queue).mp hq
    | some pr =>
      obtain ⟨e, rest⟩ := pr
      simp only [hq] at hp
      by_cases hd : e.2.2 = dest
      · simp only [hd, if_true] at hp
        cases hr : reconstructLoop st.came_from f dest with
        | none => simp [hr] at hp
        | some marks =>
          simp only [hr, Option.map_some', Option.mem_def, Option.some.injEq] at hp
          subst hp
          refine ⟨by simp [hd], fun _ => by simp [hd], fun hf => by cases hf⟩
      · simp only [hd, if_false] at hp
        cases h1 : aloop pos nbrs startv dest f sigs.tail
            ((fun st4 => st4)
              (if e.2.2 = startv then
                (nbrs e.2.2).foldl (arelax pos dest e.2.2)
                  { st with
                    quitCalled := st.quitCalled || sigs.headD false
                    queue := rest
                    open_set := st.open_set.erase e.2.2 }
              else
                { (nbrs e.2.2).foldl (arelax pos dest e.2.2)
                    { st with
                      quitCalled := st.quitCalled || sigs.headD false
                      queue := rest
                      open_set := st.open_set.erase e.2.2 } with
                  log := ((nbrs e.2.2).foldl (arelax pos dest e.2.2)
                    { st with
                      quitCalled := st.quitCalled || sigs.headD false
                      queue := rest
                      open_set := st.open_set.erase e.2.2 }).log ++
                    [(e.2.2, Mark.visited)] })) with
        | none => rw [h1] at hp; cases hp
        | some r =>
          rw [h1] at hp
          simp only [Option.map_some', Option.mem_def, Option.some.injEq] at hp
          subst hp
          have hr := ih sigs.tail _ (r.1, r.2.1, r.2.2.queue) (by rw [h1]; rfl)
          obtain ⟨hiff, hlast, hqueue⟩ := hr
          refine ⟨?_, ?_, hqueue⟩
          · rw [hiff]
            constructor
            · intro h; exact List.mem_cons_of_mem _ h
            · intro h
              rcases List.mem_cons.mp h with h | h
              · exact absurd h.symm hd
              · exact h
          · intro htrue
            dsimp only at htrue ⊢
            have hmem : dest ∈ r.2.1 := hiff.mp htrue
            have hl := hlast htrue
            cases htl : r.2.1 with
            | nil => rw [htl] at hmem; cases hmem
            | cons x xs =>
              rw [List.getLast?_cons_cons]
              dsimp only at hl
              rw [htl] at hl
              exact hl

/-- C1: for every neighbor structure, start, destination, fuel and signal
sequence, each search algorithm returns `True` exactly when the vertex
popped from the frontier equals the destination (the destination is then
the last, and only, occurrence in the pop trace), and returns `False`
exactly by exhausting the frontier — the final queue is empty and the
destination was never popped. -/
theorem search_terminal_condition {V : Type} [DecidableEq V] (pos : V → Nat × Nat)
    (nbrs : V → List V) (startv dest : V) (fuel : Nat) (sigs : List Bool) :
    (∀ p ∈ (dijkstra nbrs startv dest fuel sigs).map (fun r => (r.1, r.2.1, r.2.2.queue)),
      (p.1 = true ↔ dest ∈ p.2.1) ∧
      (p.1 = true → p.2.1.getLast? = some dest) ∧
      (p.1 = false → p.2.2 = [])) ∧
    (∀ p ∈ (a_star_search pos nbrs startv dest fuel sigs).map
        (fun r => (r.1, r.2.1, r.2.2.queue)),
      (p.1 = true ↔ dest ∈ p.2.1) ∧
      (p.1 = true → p.2.1.getLast? = some dest) ∧
      (p.1 = false → p.2.2 = [])) :=
  ⟨fun p hp => dloop_terminal nbrs startv dest fuel sigs (dinit startv) p hp,
   fun p hp => aloop_terminal pos nbrs startv dest fuel sigs (ainit pos startv dest) p hp⟩

/-- C1 witness: on a 1 by 1 grid with an unreachable destination, dijkstra
exhausts the frontier — the result is `False`, the destination was never
popped, and the final queue is empty. -/
theorem search_terminal_condition_witness :
    (dijkstra (gridNeighbors 1 []) ((0, 0) : Nat × Nat) (1, 1) 5 []).map
        (fun r => (r.1, r.2.1, r.2.2.queue)) =
      some (false, [((0, 0) : Nat × Nat)], ([] : List (Nat × Nat × (Nat × Nat)))) ∧
    ((false = true ↔ ((1, 1) : Nat × Nat) ∈ [((0, 0) : Nat × Nat)]) ∧
      (false = true → ([((0, 0) : Nat × Nat)]).getLast? = some (1, 1)) ∧
      (false = false → ([] : List (Nat × Nat × (Nat × Nat))) = [])) :=
  ⟨by decide,
    (search_terminal_condition get_position (gridNeighbors 1 []) ((0, 0) : Nat × Nat)
      (1, 1) 5 []).1 (false, [(0, 0)], []) (Option.mem_def.mpr (by decide))⟩

theorem drelax_no_dest {V : Type} [DecidableEq V] {dest cur : V} (hcur : cur ≠ dest)
    (st : DState V) (nb : V) (h : DNoDest dest st) : DNoDest dest (drelax dest cur st nb) := by
  unfold drelax
  cases hdc : st.dist cur with
  | none => exact h
  | some dc =>
    dsimp only
    by_cases hlt : costLt (dc + 1) (st.dist nb) = true
    · simp only [hlt, if_true]
      by_cases hv : nb ∈ st.visited
      · simp only [hv, if_true]
        refine ⟨h.1, ?_⟩
        simp only [List.map_cons, List.mem_cons]
        rintro (hc | hc)
        · exact hcur hc.symm
        · exact h.2 hc
      · simp only [hv, if_false]
        constructor
        · intro m hm
          by_cases hnd : nb = dest
          · simp only [hnd, if_true] at hm
            exact h.1 m hm
          · simp only [hnd, if_false] at hm
            rcases List.mem_append.mp hm with hm | hm
            · exact h.1 m hm
            · rcases List.mem_singleton.mp hm with hmq
              exact hnd (congrArg Prod.fst hmq).symm
        · simp only [List.map_cons, List.mem_cons]
          rintro (hc | hc)
          · exact hcur hc.symm
          · exact h.2 hc
    · simp only [Bool.not_eq_true] at hlt
      simp only [hlt, Bool.false_eq_true, if_false]
      exact h

theorem foldl_drelax_no_dest {V : Type} [DecidableEq V] {dest cur : V} (hcur : cur ≠ dest) :
    ∀ (l : List V) (st : DState V), DNoDest dest st →
      DNoDest dest (l.foldl (drelax dest cur) st) := by
  intro l
  induction l with
  | nil => intro st h; exact h
  | cons x xs ih =>
    intro st h
    rw [List.foldl_cons]
    exact ih (drelax dest cur st x) (drelax_no_dest hcur st x h)

theorem dloop_no_dest {V : Type} [DecidableEq V] (nbrs : V → List V)
    (startv dest : V) (hne : startv ≠ dest) :
    ∀ (fuel : Nat) (sigs : List Bool) (st : DState V), DNoDest dest st →
      ∀ r ∈ dloop nbrs startv dest fuel sigs st, ∀ m, (dest, m) ∉ r.2.2.log := by
  intro fuel
  induction fuel with
  | zero =>
    intro sigs st hinv r hr
    simp [dloop] at hr
  | succ f ih =>
    intro sigs st hinv r hr
    rw [dloop_succ] at hr
    cases hq : popMin st.queue with
    | none =>
      simp only [hq, Option.mem_def, Option.some.injEq] at hr
      subst hr
      exact hinv.1
    | some pr =>
      obtain ⟨e, rest⟩ := pr
      simp only [hq] at hr
      by_cases hd : e.2.2 = dest
      · simp only [hd, if_true] at hr
        cases hrc : reconstructLoop st.came_from f dest with
        | none => simp [hrc] at hr
        | some marks =>
          simp only [hrc, Option.mem_def, Option.some.injEq] at hr
          subst hr
          intro m hm
          dsimp only at hm
          rcases List.mem_append.mp hm with hm | hm
          · rcases List.mem_append.mp hm with hm | hm
            · exact hinv.1 m hm
            · have := (reconstructLoop_marks st.came_from f dest marks hrc (dest, m) hm).2
              exact hinv.2 this
          · rcases List.mem_singleton.mp hm with hmq
            exact hne (congrArg Prod.fst hmq).symm
      · simp only [hd, if_false] at hr
        have hcur : e.2.2 ≠ dest := hd
        have hinv2 : DNoDest dest
            { st with
              quitCalled := st.quitCalled || sigs.headD false
              queue := rest
              visited := st.visited.erase e.2.2 } := hinv
        have hinv3 := foldl_drelax_no_dest hcur (nbrs e.2.2) _ hinv2
        by_cases hs : e.2.2 = startv
        · simp only [hs, if_true] at hr
          rw [hs] at hinv3
          cases h1 : dloop nbrs startv dest f sigs.tail
              ((nbrs startv).foldl (drelax dest startv)
                { st with
                  quitCalled := st.quitCalled || sigs.headD false
                  queue := rest
                  visited := st.visited.erase startv }) with
          | none =>
            rw [h1] at hr
            cases hr
          | some r1 =>
            rw [h1] at hr
            simp only [Option.mem_def, Option.some.injEq] at hr
            subst hr
            exact ih sigs.tail _ hinv3 r1 (Option.mem_def.mpr h1)
        · simp only [hs, if_false] at hr
          set stMid := (nbrs e.2.2).foldl (drelax dest e.2.2)
            { st with
              quitCalled := st.quitCalled || sigs.headD false
              queue := rest
              visited := st.visited.erase e.2.2 } with hmid
          have hinv4 : DNoDest dest
              { stMid with log := stMid.log ++ [(e.2.2, Mark.visited)] } := by
            constructor
            · intro m hm
              rcases List.mem_append.mp hm with hm | hm
              · exact hinv3.1 m hm
              · rcases List.mem_singleton.mp hm with hmq
                exact hd (congrArg Prod.fst hmq).symm
            · exact hinv3.2
          cases h1 : dloop nbrs startv dest f sigs.tail
              { stMid with log := stMid.log ++ [(e.2.2, Mark.visited)] } with
          | none => rw [h1] at hr; cases hr
          | some r1 =>
            rw [h1] at hr
            simp only [Option.mem_def, Option.some.injEq] at hr
            subst hr
            exact ih sigs.tail _ hinv4 r1 (Option.mem_def.mpr h1)

theorem arelax_no_dest {V : Type} [DecidableEq V] (pos : V → Nat × Nat) {dest cur : V}
    (hcur : cur ≠ dest) (st : AState V) (nb : V) (h : ANoDest dest st) :
    ANoDest dest (arelax pos dest cur st nb) := by
  unfold arelax
  cases hdc : st.g_score cur with
  | none => exact h
  | some gc =>
    dsimp only
    by_cases hlt : costLt (gc + 1) (st.g_score nb) = true
    · simp only [hlt, if_true]
      by_cases hv : nb ∈ st.open_set
      · simp only [hv, if_true]
        refine ⟨h.1, ?_⟩
        simp only [List.map_cons, List.mem_cons]
        rintro (hc | hc)
        · exact hcur hc.symm
        · exact h.2 hc
      · simp only [hv, if_false]
        constructor
        · intro m hm
          by_cases hnd : nb = dest
          · simp only [hnd, if_true] at hm
            exact h.1 m hm
          · simp only [hnd, if_false] at hm
            rcases List.mem_append.mp hm with hm | hm
            · exact h.1 m hm
            · rcases List.mem_singleton.mp hm with hmq
              exact hnd (congrArg Prod.fst hmq).symm
        · simp only [List.map_cons, List.mem_cons]
          rintro (hc | hc)
          · exact hcur hc.symm
          · exact h.2 hc
    · simp only [Bool.not_eq_true] at hlt
      simp only [hlt, Bool.false_eq_true, if_false]
      exact h

theorem foldl_arelax_no_dest {V : Type} [DecidableEq V] (pos : V → Nat × Nat)
    {dest cur : V} (hcur : cur ≠ dest) :
    ∀ (l : List V) (st : AState V), ANoDest dest st →
      ANoDest dest (l.foldl (arelax pos dest cur) st) := by
  intro l
  induction l with
  | nil => intro st h; exact h
  | cons x xs ih =>
    intro st h
    rw [List.foldl_cons]
    exact ih (arelax pos dest cur st x) (arelax_no_dest pos hcur st x h)

theorem aloop_no_dest {V : Type} [DecidableEq V] (pos : V → Nat × Nat)
    (nbrs : V → List V) (startv dest : V) (hne : startv ≠ dest) :
    ∀ (fuel : Nat) (sigs : List Bool) (st : AState V), ANoDest dest st →
      ∀ r ∈ aloop pos nbrs startv dest fuel sigs st, ∀ m, (dest, m) ∉ r.2.2.log := by
  intro fuel
  induction fuel with
  | zero =>
    intro sigs st hinv r hr
    simp [aloop] at hr
  | succ f ih =>
    intro sigs st hinv r hr
    rw [aloop_succ] at hr
    cases hq : popMin st.queue with
    | none =>
      simp only [hq, Option.mem_def, Option.some.injEq] at hr
      subst hr
      exact hinv.1
    | some pr =>
      obtain ⟨e, rest⟩ := pr
      simp only [hq] at hr
      by_cases hd : e.2.2 = dest
      · simp only [hd, if_true] at hr
        cases hrc : reconstructLoop st.came_from f dest with
        | none => simp [hrc] at hr
        | some marks =>
          simp only [hrc, Option.mem_def, Option.some.injEq] at hr
          subst hr
          intro m hm
          dsimp only at hm
          rcases List.mem_append.mp hm with hm | hm
          · rcases List.mem_append.mp hm with hm | hm
            · exact hinv.1 m hm
            · have := (reconstructLoop_marks st.came_from f dest marks hrc (dest, m) hm).2
              exact hinv.2 this
          · rcases List.mem_singleton.mp hm with hmq
            exact hne (congrArg Prod.fst hmq).symm
      · simp only [hd, if_false] at hr
        have hcur : e.2.2 ≠ dest := hd
        have hinv2 : ANoDest dest
            { st with
              quitCalled := st.quitCalled || sigs.headD false
              queue := rest
              open_set := st.open_set.erase e.2.2 } := hinv
        have hinv3 := foldl_arelax_no_dest pos hcur (nbrs e.2.2) _ hinv2
        by_cases hs : e.2.2 = startv
        · simp only [hs, if_true] at hr
          rw [hs] at hinv3
          cases h1 : aloop pos nbrs startv dest f sigs.tail
              ((nbrs startv).foldl (arelax pos dest startv)
                { st with
                  quitCalled := st.quitCalled || sigs.headD false
                  queue := rest
                  open_set := st.open_set.erase startv }) with
          | none =>
            rw [h1] at hr
            cases hr
          | some r1 =>
            rw [h1] at hr
            simp only [Option.mem_def, Option.some.injEq] at hr
            subst hr
            exact ih sigs.tail _ hinv3 r1 (Option.mem_def.mpr h1)
        · simp only [hs, if_false] at hr
          set stMid := (nbrs e.2.2).foldl (arelax pos dest e.2.2)
            { st with
              quitCalled := st.quitCalled || sigs.headD false
              queue := rest
              open_set := st.open_set.erase e.2.2 } with hmid
          have hinv4 : ANoDest dest
              { stMid with log := stMid.log ++ [(e.2.2, Mark.visited)] } := by
            constructor
            · intro m hm
              rcases List.mem_append.mp hm with hm | hm
              · exact hinv3.1 m hm
              · rcases List.mem_singleton.mp hm with hmq
                exact hd (congrArg Prod.fst hmq).symm
            · exact hinv3.2
          cases h1 : aloop pos nbrs startv dest f sigs.tail
              { stMid with log := stMid.log ++ [(e.2.2, Mark.visited)] } with
          | none => rw [h1] at hr; cases hr
          | some r1 =>
            rw [h1] at hr
            simp only [Option.mem_def, Option.some.injEq] at hr
            subst hr
            exact ih sigs.tail _ hinv4 r1 (Option.mem_def.mpr h1)

/-- C10: as long as the start and destination are distinct vertices (the GUI
guarantees they are), no run of `dijkstra` or `a_star_search` — path
reconstruction included — ever issues a state mutation on the destination
vertex: it is never marked Visiting when discovered (guarded insertion),
never marked Visited when popped (the search returns before that marking),
and never marked Path during reconstruction.  The event log collects every
`make_*` call of the run, and no entry concerns the destination. -/
theorem destination_never_mutated {V : Type} [DecidableEq V] (pos : V → Nat × Nat)
    (nbrs : V → List V) (startv dest : V) (fuel : Nat) (sigs : List Bool)
    (hne : startv ≠ dest) :
    (∀ L ∈ (dijkstra nbrs startv dest fuel sigs).map (fun r => r.2.2.log),
      ∀ m, (dest, m) ∉ L) ∧
    (∀ L ∈ (a_star_search pos nbrs startv dest fuel sigs).map (fun r => r.2.2.log),
      ∀ m, (dest, m) ∉ L) := by
  constructor
  · intro L hL m
    cases h1 : dijkstra nbrs startv dest fuel sigs with
    | none => rw [h1] at hL; cases hL
    | some r =>
      rw [h1] at hL
      simp only [Option.map_some', Option.mem_def, Option.some.injEq] at hL
      subst hL
      exact dloop_no_dest nbrs startv dest hne fuel sigs (dinit startv)
        ⟨by simp [dinit], by simp [dinit]⟩ r (Option.mem_def.mpr h1) m
  · intro L hL m
    cases h1 : a_star_search pos nbrs startv dest fuel sigs with
    | none => rw [h1] at hL; cases hL
    | some r =>
      rw [h1] at hL
      simp only [Option.map_some', Option.mem_def, Option.some.injEq] at hL
      subst hL
      exact aloop_no_dest pos nbrs startv dest hne fuel sigs (ainit pos startv dest)
        ⟨by simp [ainit], by simp [ainit]⟩ r (Option.mem_def.mpr h1) m

/-- C10 witness: concrete 2 by 2 run, start (0,0), destination (1,1). -/
theorem destination_never_mutated_witness :
    ((0, 0) : Nat × Nat) ≠ (1, 1) ∧
    (∀ L ∈ (dijkstra (gridNeighbors 2 []) ((0, 0) : Nat × Nat) (1, 1) 20 []).map
        (fun r => r.2.2.log),
      ∀ m, (((1, 1) : Nat × Nat), m) ∉ L) :=
  ⟨by decide,
    (destination_never_mutated get_position (gridNeighbors 2 []) ((0, 0) : Nat × Nat)
      (1, 1) 20 [] (by decide)).1⟩

theorem entryLe_iff {V : Type} (a b : Nat × Nat × V) :
    entryLe a b = true ↔ (a.1 < b.1 ∨ (a.1 = b.1 ∧ a.2.1 ≤ b.2.1)) := by
  unfold entryLe
  by_cases h : a.1 = b.1
  · simp [h]
  · simp [h]

theorem entryLe_refl {V : Type} (a : Nat × Nat × V) : entryLe a a = true := by
  simp [entryLe]

theorem entryLe_total {V : Type} (a b : Nat × Nat × V)
    (h : ¬ entryLe a b = true) : entryLe b a = true := by
  rw [entryLe_iff] at h ⊢
  omega

theorem entryLe_trans {V : Type} (a b c : Nat × Nat × V)
    (hab : entryLe a b = true) (hbc : entryLe b c = true) : entryLe a c = true := by
  rw [entryLe_iff] at hab hbc ⊢
  omega

theorem popMin_lex_min {V : Type} :
    ∀ (q : List (Nat × Nat × V)) (e : Nat × Nat × V) (rest : List (Nat × Nat × V)),
      popMin q = some (e, rest) → ∀ x ∈ q, entryLe e x = true := by
  intro q
  induction q with
  | nil => intro e rest h; cases h
  | cons a as ih =>
    intro e rest h x hx
    simp only [popMin] at h
    cases has : popMin as with
    | none =>
      rw [has] at h
      cases h
      have := (popMin_eq_none as).mp has
      subst this
      rcases List.mem_singleton.mp hx with rfl
      exact entryLe_refl x
    | some pr =>
      obtain ⟨m, rest'⟩ := pr
      rw [has] at h
      by_cases hle : entryLe a m = true
      · simp only [hle, if_true, Option.some.injEq, Prod.mk.injEq] at h
        obtain ⟨he, hrest⟩ := h
        rcases List.mem_cons.mp hx with hxa | hxas
        · rw [← he, hxa]
          exact entryLe_refl a
        · rw [← he]
          exact entryLe_trans a m x hle (ih m rest' has x hxas)
      · simp only [hle, Bool.false_eq_true, if_false, Option.some.injEq, Prod.mk.injEq] at h
        obtain ⟨he, hrest⟩ := h
        rcases List.mem_cons.mp hx with hxa | hxas
        · rw [← he, hxa]
          exact entryLe_total a m hle
        · rw [← he]
          exact ih m rest' has x hxas

theorem popMin_sublist {V : Type} :
    ∀ (q : List (Nat × Nat × V)) (e : Nat × Nat × V) (rest : List (Nat × Nat × V)),
      popMin q = some (e, rest) → rest.Sublist q := by
  intro q
  induction q with
  | nil => intro e rest h; cases h
  | cons a as ih =>
    intro e rest h
    simp only [popMin] at h
    cases has : popMin as with
    | none =>
      rw [has] at h
      cases h
      exact List.nil_sublist _
    | some pr =>
      obtain ⟨m, rest'⟩ := pr
      rw [has] at h
      by_cases hle : entryLe a m = true
      · simp only [hle, if_true, Option.some.injEq, Prod.mk.injEq] at h
        obtain ⟨rfl, rfl⟩ := h
        exact List.sublist_cons_self a as
      · simp only [hle, Bool.false_eq_true, if_false, Option.some.injEq, Prod.mk.injEq] at h
        obtain ⟨rfl, rfl⟩ := h
        exact (ih m rest' has).cons₂ a

theorem pop_qinv {V : Type} (c : Nat) (q : List (Nat × Nat × V)) (e : Nat × Nat × V)
    (rest : List (Nat × Nat × V)) (h : QInv c q) (hp : popMin q = some (e, rest)) :
    QInv c rest :=
  ⟨fun x hx => h.1 x ((popMin_sublist q e rest hp).subset hx),
   h.2.sublist (popMin_sublist q e rest hp)⟩

theorem drelax_qinv {V : Type} [DecidableEq V] (dest cur : V) (st : DState V) (nb : V)
    (h : QInv st.count st.queue) :
    QInv (drelax dest cur st nb).count (drelax dest cur st nb).queue := by
  unfold drelax
  cases hdc : st.dist cur with
  | none => exact h
  | some dc =>
    dsimp only
    by_cases hlt : costLt (dc + 1) (st.dist nb) = true
    · simp only [hlt, if_true]
      by_cases hv : nb ∈ st.visited
      · simp only [hv, if_true]
        exact h
      · simp only [hv, if_false]
        constructor
        · intro x hx
          rcases List.mem_append.mp hx with hx | hx
          · exact Nat.le_succ_of_le (h.1 x hx)
          · rcases List.mem_singleton.mp hx with rfl
            exact Nat.le_refl _
        · rw [List.pairwise_append]
          refine ⟨h.2, List.pairwise_singleton _ _, ?_⟩
          intro x hx y hy
          rcases List.mem_singleton.mp hy with rfl
          have := h.1 x hx
          simp only
          omega
    · simp only [Bool.not_eq_true] at hlt
      simp only [hlt, Bool.false_eq_true, if_false]
      exact h

theorem foldl_drelax_qinv {V : Type} [DecidableEq V] (dest cur : V) :
    ∀ (l : List V) (st : DState V), QInv st.count st.queue →
      QInv ((l.foldl (drelax dest cur) st)).count ((l.foldl (drelax dest cur) st)).queue := by
  intro l
  induction l with
  | nil => intro st h; exact h
  | cons x xs ih =>
    intro st h
    rw [List.foldl_cons]
    exact ih (drelax dest cur st x) (drelax_qinv dest cur st x h)

theorem dloop_qinv {V : Type} [DecidableEq V] (nbrs : V → List V) (startv dest : V) :
    ∀ (fuel : Nat) (sigs : List Bool) (st : DState V), QInv st.count st.queue →
      ∀ r ∈ dloop nbrs startv dest fuel sigs st, QInv r.2.2.count r.2.2.queue := by
  intro fuel
  induction fuel with
  | zero =>
    intro sigs st hinv r hr
    simp [dloop] at hr
  | succ f ih =>
    intro sigs st hinv r hr
    rw [dloop_succ] at hr
    cases hq : popMin st.queue with
    | none =>
      simp only [hq, Option.mem_def, Option.some.injEq] at hr
      subst hr
      exact hinv
    | some pr =>
      obtain ⟨e, rest⟩ := pr
      simp only [hq] at hr
      have hrest : QInv st.count rest := pop_qinv st.count st.queue e rest hinv hq
      by_cases hd : e.2.2 = dest
      · simp only [hd, if_true] at hr
        cases hrc : reconstructLoop st.came_from f dest with
        | none => simp [hrc] at hr
        | some marks =>
          simp only [hrc, Option.mem_def, Option.some.injEq] at hr
          subst hr
          exact hrest
      · simp only [hd, if_false] at hr
        have hmidinv := foldl_drelax_qinv dest e.2.2 (nbrs e.2.2)
          { st with
            quitCalled := st.quitCalled || sigs.headD false
            queue := rest
            visited := st.visited.erase e.2.2 } hrest
        by_cases hs : e.2.2 = startv
        · simp only [hs, if_true] at hr
          rw [hs] at hmidinv
          cases h1 : dloop nbrs startv dest f sigs.tail
              ((nbrs startv).foldl (drelax dest startv)
                { st with
                  quitCalled := st.quitCalled || sigs.headD false
                  queue := rest
                  visited := st.visited.erase startv }) with
          | none => rw [h1] at hr; cases hr
          | some r1 =>
            rw [h1] at hr
            simp only [Option.mem_def, Option.some.injEq] at hr
            subst hr
            exact ih sigs.tail _ hmidinv r1 (Option.mem_def.mpr h1)
        · simp only [hs, if_false] at hr
          set stMid := (nbrs e.2.2).foldl (drelax dest e.2.2)
            { st with
              quitCalled := st.quitCalled || sigs.headD false
              queue := rest
              visited := st.visited.erase e.2.2 } with hmid
          cases h1 : dloop nbrs startv dest f sigs.tail
              { stMid with log := stMid.log ++ [(e.2.2, Mark.visited)] } with
          | none => rw [h1] at hr; cases hr
          | some r1 =>
            rw [h1] at hr
            simp only [Option.mem_def, Option.some.injEq] at hr
            subst hr
            exact ih sigs.tail { stMid with log := stMid.log ++ [(e.2.2, Mark.visited)] }
              hmidinv r1 (Option.mem_def.mpr h1)

theorem arelax_qinv {V : Type} [DecidableEq V] (pos : V → Nat × Nat) (dest cur : V)
    (st : AState V) (nb : V) (h : QInv st.count st.queue) :
    QInv (arelax pos dest cur st nb).count (arelax pos dest cur st nb).queue := by
  unfold arelax
  cases hdc : st.g_score cur with
  | none => exact h
  | some gc =>
    dsimp only
    by_cases hlt : costLt (gc + 1) (st.g_score nb) = true
    · simp only [hlt, if_true]
      by_cases hv : nb ∈ st.open_set
      · simp only [hv, if_true]
        exact h
      · simp only [hv, if_false]
        constructor
        · intro x hx
          rcases List.mem_append.mp hx with hx | hx
          · exact Nat.le_succ_of_le (h.1 x hx)
          · rcases List.mem_singleton.mp hx with rfl
            exact Nat.le_refl _
        · rw [List.pairwise_append]
          refine ⟨h.2, List.pairwise_singleton _ _, ?_⟩
          intro x hx y hy
          rcases List.mem_singleton.mp hy with rfl
          have := h.1 x hx
          simp only
          omega
    · simp only [Bool.not_eq_true] at hlt
      simp only [hlt, Bool.false_eq_true, if_false]
      exact h

theorem foldl_arelax_qinv {V : Type} [DecidableEq V] (pos : V → Nat × Nat) (dest cur : V) :
    ∀ (l : List V) (st : AState V), QInv st.count st.queue →
      QInv ((l.foldl (arelax pos dest cur) st)).count
        ((l.foldl (arelax pos dest cur) st)).queue := by
  intro l
  induction l with
  | nil => intro st h; exact h
  | cons x xs ih =>
    intro st h
    rw [List.foldl_cons]
    exact ih (arelax pos dest cur st x) (arelax_qinv pos dest cur st x h)

theorem aloop_qinv {V : Type} [DecidableEq V] (pos : V → Nat × Nat) (nbrs : V → List V)
    (startv dest : V) :
    ∀ (fuel : Nat) (sigs : List Bool) (st : AState V), QInv st.count st.queue →
      ∀ r ∈ aloop pos nbrs startv dest fuel sigs st, QInv r.2.2.count r.2.2.queue := by
  intro fuel
  induction fuel with
  | zero =>
    intro sigs st hinv r hr
    simp [aloop] at hr
  | succ f ih =>
    intro sigs st hinv r hr
    rw [aloop_succ] at hr
    cases hq : popMin st.queue with
    | none =>
      simp only [hq, Option.mem_def, Option.some.injEq] at hr
      subst hr
      exact hinv
    | some pr =>
      obtain ⟨e, rest⟩ := pr
      simp only [hq] at hr
      have hrest : QInv st.count rest := pop_qinv st.count st.queue e rest hinv hq
      by_cases hd : e.2.2 = dest
      · simp only [hd, if_true] at hr
        cases hrc : reconstructLoop st.came_from f dest with
        | none => simp [hrc] at hr
        | some marks =>
          simp only [hrc, Option.mem_def, Option.some.injEq] at hr
          subst hr
          exact hrest
      · simp only [hd, if_false] at hr
        have hmidinv := foldl_arelax_qinv pos dest e.2.2 (nbrs e.2.2)
          { st with
            quitCalled := st.quitCalled || sigs.headD false
            queue := rest
            open_set := st.open_set.erase e.2.2 } hrest
        by_cases hs : e.2.2 = startv
        · simp only [hs, if_true] at hr
          rw [hs] at hmidinv
          cases h1 : aloop pos nbrs startv dest f sigs.tail
              ((nbrs startv).foldl (arelax pos dest startv)
                { st with
                  quitCalled := st.quitCalled || sigs.headD false
                  queue := rest
                  open_set := st.open_set.erase startv }) with
          | none => rw [h1] at hr; cases hr
          | some r1 =>
            rw [h1] at hr
            simp only [Option.mem_def, Option.some.injEq] at hr
            subst hr
            exact ih sigs.tail _ hmidinv r1 (Option.mem_def.mpr h1)
        · simp only [hs, if_false] at hr
          set stMid := (nbrs e.2.2).foldl (arelax pos dest e.2.2)
            { st with
              quitCalled := st.quitCalled || sigs.headD false
              queue := rest
              open_set := st.open_set.erase e.2.2 } with hmid
          cases h1 : aloop pos nbrs startv dest f sigs.tail
              { stMid with log := stMid.log ++ [(e.2.2, Mark.visited)] } with
          | none => rw [h1] at hr; cases hr
          | some r1 =>
            rw [h1] at hr
            simp only [Option.mem_def, Option.some.injEq] at hr
            subst hr
            exact ih sigs.tail { stMid with log := stMid.log ++ [(e.2.2, Mark.visited)] }
              hmidinv r1 (Option.mem_def.mpr h1)

/-- C9: runs of the embedded algorithms are deterministic functions of grid,
endpoints and neighbor ordering (two invocations on identical inputs are
definitionally equal, pop order, `came_from` and path included); the frontier
pop always selects the entry minimal in (priority key, insertion count)
lexicographic order — among equal keys the earliest inserted entry, i.e.
FIFO; and throughout every run, from the initial single entry on, the
insertion counts in the frontier are bounded by the monotonically increasing
counter and pairwise distinct, so the tuple comparison never reaches the
vertex component. -/
theorem deterministic_fifo_frontier {V : Type} [DecidableEq V] (pos : V → Nat × Nat)
    (nbrs : V → List V) (startv dest : V) (fuel : Nat) (sigs : List Bool) :
    (dijkstra nbrs startv dest fuel sigs = dijkstra nbrs startv dest fuel sigs ∧
      a_star_search pos nbrs startv dest fuel sigs =
        a_star_search pos nbrs startv dest fuel sigs) ∧
    (∀ (q : List (Nat × Nat × V)) (e : Nat × Nat × V) (rest : List (Nat × Nat × V)),
      popMin q = some (e, rest) →
        ∀ x ∈ q, e.1 < x.1 ∨ (e.1 = x.1 ∧ e.2.1 ≤ x.2.1)) ∧
    (QInv 0 (dinit startv : DState V).queue ∧ QInv 0 (ainit pos startv dest).queue) ∧
    (∀ st : DState V, QInv st.count st.queue →
      ∀ r ∈ dloop nbrs startv dest fuel sigs st, QInv r.2.2.count r.2.2.queue) ∧
    (∀ st : AState V, QInv st.count st.queue →
      ∀ r ∈ aloop pos nbrs startv dest fuel sigs st, QInv r.2.2.count r.2.2.queue) := by
  refine ⟨⟨rfl, rfl⟩, ?_, ⟨?_, ?_⟩, ?_, ?_⟩
  · intro q e rest hp x hx
    exact (entryLe_iff e x).mp (popMin_lex_min q e rest hp x hx)
  · exact ⟨by intro x hx; rcases List.mem_singleton.mp hx with rfl; exact Nat.le_refl _,
      List.pairwise_singleton _ _⟩
  · exact ⟨by intro x hx; rcases List.mem_singleton.mp hx with rfl; exact Nat.le_refl _,
      List.pairwise_singleton _ _⟩
  · intro st h r hr
    exact dloop_qinv nbrs startv dest fuel sigs st h r hr
  · intro st h r hr
    exact aloop_qinv pos nbrs startv dest fuel sigs st h r hr

/-- C9 witness: a two-entry frontier with equal keys pops the entry with the
smaller insertion count (FIFO among equal priorities). -/
theorem deterministic_fifo_frontier_witness :
    popMin [(1, 0, ((0, 0) : Nat × Nat)), (1, 1, (1, 0))] =
      some ((1, 0, ((0, 0) : Nat × Nat)), [(1, 1, (1, 0))]) ∧
    (1, 1, ((1, 0) : Nat × Nat)) ∈ [(1, 0, ((0, 0) : Nat × Nat)), (1, 1, (1, 0))] ∧
    ((1 : Nat) < 1 ∨ ((1 : Nat) = 1 ∧ (0 : Nat) ≤ 1)) :=
  ⟨by decide, by decide,
    (deterministic_fifo_frontier get_position (gridNeighbors 2 []) ((0, 0) : Nat × Nat)
      (1, 1) 5 []).2.1 [(1, 0, (0, 0)), (1, 1, (1, 0))] (1, 0, (0, 0)) [(1, 1, (1, 0))]
      (by decide) (1, 1, (1, 0)) (by decide)⟩

theorem mh_self (a : Nat × Nat) : manhatten_distance a a = 0 := by
  unfold manhatten_distance; omega

theorem mh_comm (a b : Nat × Nat) : manhatten_distance a b = manhatten_distance b a := by
  unfold manhatten_distance; omega

theorem mh_triangle (a b c : Nat × Nat) :
    manhatten_distance a c ≤ manhatten_distance a b + manhatten_distance b c := by
  unfold manhatten_distance; omega

theorem mh_eq_zero (a b : Nat × Nat) : manhatten_distance a b = 0 ↔ a = b := by
  unfold manhatten_distance
  constructor
  · intro h
    have h1 : a.1 = b.1 := by omega
    have h2 : a.2 = b.2 := by omega
    exact Prod.ext h1 h2
  · intro h; subst h; omega

theorem gridNeighbors_no_walls (n : Nat) (v : Nat × Nat) :
    gridNeighbors n [] v =
      ((if 1 ≤ v.1 then [(v.1 - 1, v.2)] else []) ++
       (if v.1 + 1 < n then [(v.1 + 1, v.2)] else []) ++
       (if 1 ≤ v.2 then [(v.1, v.2 - 1)] else []) ++
       (if v.2 + 1 < n then [(v.1, v.2 + 1)] else [])) := by
  unfold gridNeighbors
  rw [List.filter_eq_self]
  intro a ha
  simp

theorem mem_gridNeighbors {n : Nat} {v w : Nat × Nat} (hv : inGrid n v) :
    w ∈ gridNeighbors n [] v ↔ (inGrid n w ∧ manhatten_distance v w = 1) := by
  obtain ⟨hv1, hv2⟩ := hv
  rw [gridNeighbors_no_walls]
  simp only [List.mem_append]
  constructor
  · intro h
    rcases h with ((h | h) | h) | h
    · by_cases hb : 1 ≤ v.1
      · simp only [hb, if_true, List.mem_singleton] at h
        subst h
        refine ⟨⟨?_, ?_⟩, ?_⟩
        · dsimp only; omega
        · dsimp only; omega
        · unfold manhatten_distance; dsimp only; omega
      · simp [hb] at h
    · by_cases hb : v.1 + 1 < n
      · simp only [hb, if_true, List.mem_singleton] at h
        subst h
        refine ⟨⟨?_, ?_⟩, ?_⟩
        · dsimp only; omega
        · dsimp only; omega
        · unfold manhatten_distance; dsimp only; omega
      · simp [hb] at h
    · by_cases hb : 1 ≤ v.2
      · simp only [hb, if_true, List.mem_singleton] at h
        subst h
        refine ⟨⟨?_, ?_⟩, ?_⟩
        · dsimp only; omega
        · dsimp only; omega
        · unfold manhatten_distance; dsimp only; omega
      · simp [hb] at h
    · by_cases hb : v.2 + 1 < n
      · simp only [hb, if_true, List.mem_singleton] at h
        subst h
        refine ⟨⟨?_, ?_⟩, ?_⟩
        · dsimp only; omega
        · dsimp only; omega
        · unfold manhatten_distance; dsimp only; omega
      · simp [hb] at h
  · intro hcon
    obtain ⟨⟨hw1, hw2⟩, hadj⟩ := hcon
    unfold manhatten_distance at hadj
    have hcases : (w.1 + 1 = v.1 ∧ w.2 = v.2) ∨ (w.1 = v.1 + 1 ∧ w.2 = v.2) ∨
        (w.1 = v.1 ∧ w.2 + 1 = v.2) ∨ (w.1 = v.1 ∧ w.2 = v.2 + 1) := by omega
    have hwpair : w = (w.1, w.2) := rfl
    rcases hcases with ⟨h1, h2⟩ | ⟨h1, h2⟩ | ⟨h1, h2⟩ | ⟨h1, h2⟩
    · left; left; left
      have hb : 1 ≤ v.1 := by omega
      simp only [hb, if_true, List.mem_singleton]
      rw [hwpair]
      have h3 : v.1 - 1 = w.1 := by omega
      rw [← h3, ← h2]
    · left; left; right
      have hb : v.1 + 1 < n := by omega
      simp only [hb, if_true, List.mem_singleton]
      rw [hwpair, ← h1, ← h2]
    · left; right
      have hb : 1 ≤ v.2 := by omega
      simp only [hb, if_true, List.mem_singleton]
      rw [hwpair]
      have h3 : v.2 - 1 = w.2 := by omega
      rw [← h1, ← h3]
    · right
      have hb : v.2 + 1 < n := by omega
      simp only [hb, if_true, List.mem_singleton]
      rw [hwpair, ← h1, ← h2]

theorem gridNeighbors_adj {n : Nat} {v w : Nat × Nat} (hv : inGrid n v)
    (h : w ∈ gridNeighbors n [] v) :
    manhatten_distance v w = 1 ∧ inGrid n w :=
  ⟨((mem_gridNeighbors hv).mp h).2, ((mem_gridNeighbors hv).mp h).1⟩

theorem gridNeighbors_symm {n : Nat} {v w : Nat × Nat} (hv : inGrid n v)
    (hw : inGrid n w) (h : w ∈ gridNeighbors n [] v) : v ∈ gridNeighbors n [] w := by
  rw [mem_gridNeighbors hw]
  refine ⟨hv, ?_⟩
  rw [mh_comm]
  exact ((mem_gridNeighbors hv).mp h).2

/-- Step from `v` one cell toward a target `t` (both in the grid): a neighbor
strictly closer to `t` exists whenever `v` is not `t` itself. -/
theorem step_toward {n : Nat} {t v : Nat × Nat} (ht : inGrid n t) (hv : inGrid n v)
    (hne : v ≠ t) :
    ∃ w, w ∈ gridNeighbors n [] v ∧ manhatten_distance t w + 1 = manhatten_distance t v := by
  obtain ⟨ht1, ht2⟩ := ht
  obtain ⟨hv1, hv2⟩ := hv
  by_cases h1 : v.1 = t.1
  · have h2 : v.2 ≠ t.2 := by
      intro h2
      exact hne (Prod.ext h1 h2)
    by_cases hlt : v.2 < t.2
    · refine ⟨(v.1, v.2 + 1), ?_, ?_⟩
      · rw [mem_gridNeighbors ⟨hv1, hv2⟩]
        refine ⟨⟨?_, ?_⟩, ?_⟩
        · exact hv1
        · dsimp only; omega
        · unfold manhatten_distance; dsimp only; omega
      · unfold manhatten_distance; dsimp only; omega
    · refine ⟨(v.1, v.2 - 1), ?_, ?_⟩
      · rw [mem_gridNeighbors ⟨hv1, hv2⟩]
        refine ⟨⟨?_, ?_⟩, ?_⟩
        · exact hv1
        · dsimp only; omega
        · unfold manhatten_distance; dsimp only; omega
      · unfold manhatten_distance; dsimp only; omega
  · by_cases hlt : v.1 < t.1
    · refine ⟨(v.1 + 1, v.2), ?_, ?_⟩
      · rw [mem_gridNeighbors ⟨hv1, hv2⟩]
        refine ⟨⟨?_, ?_⟩, ?_⟩
        · dsimp only; omega
        · exact hv2
        · unfold manhatten_distance; dsimp only; omega
      · unfold manhatten_distance; dsimp only; omega
    · refine ⟨(v.1 - 1, v.2), ?_, ?_⟩
      · rw [mem_gridNeighbors ⟨hv1, hv2⟩]
        refine ⟨⟨?_, ?_⟩, ?_⟩
        · dsimp only; omega
        · exact hv2
        · unfold manhatten_distance; dsimp only; omega
      · unfold manhatten_distance; dsimp only; omega

theorem mem_cells {n : Nat} {v : Nat × Nat} : v ∈ cells n ↔ inGrid n v := by
  unfold cells inGrid
  simp only [List.mem_flatMap, List.mem_map, List.mem_range]
  constructor
  · rintro ⟨r, hr, c, hc, rfl⟩
    exact ⟨hr, hc⟩
  · rintro ⟨h1, h2⟩
    exact ⟨v.1, h1, v.2, h2, rfl⟩

theorem cells_nodup (n : Nat) : (cells n).Nodup := by
  unfold cells
  rw [List.nodup_flatMap]
  constructor
  · intro r hr
    refine List.Nodup.map ?_ (List.nodup_range n)
    intro a b h
    exact ((Prod.mk.injEq _ _ _ _).mp h).2
  · refine List.Pairwise.imp ?_ (List.nodup_range n)
    intro r₁ r₂ hne
    simp only [Function.onFun, List.disjoint_left]
    intro w hw₁ hw₂
    simp only [List.mem_map] at hw₁ hw₂
    obtain ⟨c₁, _, rfl⟩ := hw₁
    obtain ⟨c₂, _, h⟩ := hw₂
    exact hne ((Prod.mk.injEq _ _ _ _).mp h).1.symm

theorem countP_flip_one {α : Type} [DecidableEq α] :
    ∀ (l : List α) (p q : α → Bool) (x : α), l.Nodup → x ∈ l → p x = true → q x = false →
      (∀ y ∈ l, y ≠ x → p y = q y) → l.countP p = l.countP q + 1 := by
  intro l
  induction l with
  | nil => intro p q x _ hx; cases hx
  | cons a as ih =>
    intro p q x hnd hx hpx hqx hagree
    rcases List.mem_cons.mp hx with rfl | hx
    · have hqa : ∀ y ∈ as, p y = q y := by
        intro y hy
        have hyx : y ≠ x := fun h => (List.nodup_cons.mp hnd).1 (h ▸ hy)
        exact hagree y (List.mem_cons_of_mem _ hy) hyx
      rw [List.countP_cons, List.countP_cons, hpx, hqx]
      simp only [if_true, if_false, Bool.false_eq_true]
      have : as.countP p = as.countP q := List.countP_congr (fun y hy => by rw [hqa y hy])
      omega
    · have hax : a ≠ x := fun h => (List.nodup_cons.mp hnd).1 (h ▸ hx)
      have hrec := ih p q x (List.nodup_cons.mp hnd).2 hx hpx hqx
        (fun y hy hyx => hagree y (List.mem_cons_of_mem _ hy) hyx)
      rw [List.countP_cons, List.countP_cons, hrec, hagree a (List.mem_cons_self a as) hax]
      omega

theorem popMin_mem {V : Type} :
    ∀ (q : List (Nat × Nat × V)) (e : Nat × Nat × V) (rest : List (Nat × Nat × V)),
      popMin q = some (e, rest) → e ∈ q := by
  intro q
  induction q with
  | nil => intro e rest h; cases h
  | cons a as ih =>
    intro e rest h
    simp only [popMin] at h
    cases has : popMin as with
    | none =>
      rw [has] at h
      cases h
      exact List.mem_cons_self _ _
    | some pr =>
      obtain ⟨m, rest'⟩ := pr
      rw [has] at h
      by_cases hle : entryLe a m = true
      · simp only [hle, if_true, Option.some.injEq, Prod.mk.injEq] at h
        obtain ⟨rfl, rfl⟩ := h
        exact List.mem_cons_self _ _
      · simp only [hle, Bool.false_eq_true, if_false, Option.some.injEq, Prod.mk.injEq] at h
        obtain ⟨rfl, rfl⟩ := h
        exact List.mem_cons_of_mem _ (ih _ _ has)

theorem popMin_perm {V : Type} :
    ∀ (q : List (Nat × Nat × V)) (e : Nat × Nat × V) (rest : List (Nat × Nat × V)),
      popMin q = some (e, rest) → (e :: rest).Perm q := by
  intro q
  induction q with
  | nil => intro e rest h; cases h
  | cons a as ih =>
    intro e rest h
    simp only [popMin] at h
    cases has : popMin as with
    | none =>
      rw [has] at h
      cases h
      have := (popMin_eq_none as).mp has
      subst this
      exact List.Perm.refl _
    | some pr =>
      obtain ⟨m, rest'⟩ := pr
      rw [has] at h
      by_cases hle : entryLe a m = true
      · simp only [hle, if_true, Option.some.injEq, Prod.mk.injEq] at h
        obtain ⟨rfl, rfl⟩ := h
        exact List.Perm.refl _
      · simp only [hle, Bool.false_eq_true, if_false, Option.some.injEq, Prod.mk.injEq] at h
        obtain ⟨rfl, rfl⟩ := h
        have hperm := ih _ _ has
        exact (List.Perm.swap a m rest').trans (List.Perm.cons a hperm)

theorem cfFind_cons {V : Type} [DecidableEq V] (a b : V) (cf : List (V × V)) (x : V) :
    cfFind ((a, b) :: cf) x = if x = a then some b else cfFind cf x := rfl

/-- Adjacent grid cells are at Manhattan distance exactly one more or one
less from any fixed source (parity argument). -/
theorem mh_adj (s u v : Nat × Nat) (h : manhatten_distance u v = 1) :
    manhatten_distance s v = manhatten_distance s u + 1 ∨
    manhatten_distance s v + 1 = manhatten_distance s u := by
  unfold manhatten_distance at *
  omega

/-- Derived completeness: a grid vertex strictly below every queue key is
already popped with its exact distance recorded. -/
theorem dinv_complete {n : Nat} {s : Nat × Nat} {st : DState (Nat × Nat)}
    (hs : inGrid n s) (hinv : DInv n s st) :
    ∀ v, inGrid n v → (∀ e ∈ st.queue, manhatten_distance s v < e.1) →
      st.dist v = some (manhatten_distance s v) ∧ v ∉ st.visited := by
  have H : ∀ k v, manhatten_distance s v = k → inGrid n v →
      (∀ e ∈ st.queue, manhatten_distance s v < e.1) →
      st.dist v = some (manhatten_distance s v) ∧ v ∉ st.visited := by
    intro k
    induction k using Nat.strong_induction_on with
    | _ k ih =>
      intro v hmv hv hcond
      have hnotvis : v ∉ st.visited := by
        intro hvis
        obtain ⟨e, he, hev⟩ := (hinv.sync v).mp hvis
        have hq := hinv.queue_exact e he
        have hlt := hcond e he
        rw [hq.2, hev] at hlt
        omega
      refine ⟨?_, hnotvis⟩
      by_cases hvs : v = s
      · subst hvs
        rw [hinv.dist_s, mh_self]
      · obtain ⟨w, hwmem, hwd⟩ := step_toward hs hv hvs
        have hwadj := gridNeighbors_adj hv hwmem
        have hwgrid : inGrid n w := hwadj.2
        have hcondw : ∀ e ∈ st.queue, manhatten_distance s w < e.1 := by
          intro e he
          have := hcond e he
          omega
        have hw := ih (manhatten_distance s w) (by omega) w rfl hwgrid hcondw
        have hvw : v ∈ gridNeighbors n [] w := gridNeighbors_symm hv hwgrid hwmem
        have hdisc := hinv.popped_nbrs w (by rw [hw.1]; simp) hw.2 v hvw
        cases hdv : st.dist v with
        | none => exact absurd hdv hdisc
        | some k2 =>
          have := (hinv.dist_exact v k2 hdv).1
          rw [this]
  intro v hv hcond
  exact H (manhatten_distance s v) v rfl hv hcond

/-- Under the exactness invariant, one dijkstra relaxation is either a no-op
(the neighbor is already discovered, and a unit step can never improve an
exact distance) or the full fresh-discovery insertion. -/
theorem drelax_ctx {s d cur : Nat × Nat} {st : DState (Nat × Nat)} {nb : Nat × Nat}
    (hcur : st.dist cur = some (manhatten_distance s cur))
    (hadj : manhatten_distance cur nb = 1)
    (hexact : ∀ v k, st.dist v = some k → k = manhatten_distance s v)
    (hvisq : nb ∈ st.visited → st.dist nb ≠ none) :
    (st.dist nb ≠ none ∧ drelax d cur st nb = st) ∨
    (st.dist nb = none ∧
      drelax d cur st nb = { st with
        came_from := (nb, cur) :: st.came_from
        dist := fun v =>
          if v = nb then some (manhatten_distance s cur + 1) else st.dist v
        count := st.count + 1
        queue := st.queue ++ [(manhatten_distance s cur + 1, st.count + 1, nb)]
        visited := nb :: st.visited
        log := st.log ++ (if nb = d then [] else [(nb, Mark.visiting)]) }) := by
  cases hnb : st.dist nb with
  | some k =>
    left
    refine ⟨by simp [hnb], ?_⟩
    have hk : k = manhatten_distance s nb := hexact nb k hnb
    have htri : manhatten_distance s nb ≤ manhatten_distance s cur + 1 := by
      have := mh_triangle s cur nb
      omega
    have hlt : costLt (manhatten_distance s cur + 1) (st.dist nb) = false := by
      rw [hnb]
      unfold costLt
      simp
      omega
    unfold drelax
    rw [hcur]
    dsimp only
    rw [hlt]
    simp
  | none =>
    right
    refine ⟨rfl, ?_⟩
    have hnvis : nb ∉ st.visited := fun h => hvisq h hnb
    have hlt : costLt (manhatten_distance s cur + 1) (st.dist nb) = true := by
      rw [hnb]; rfl
    unfold drelax
    rw [hcur]
    dsimp only
    rw [hlt]
    simp only [if_true]
    rw [if_neg]
    · by_cases hnd : nb = d
      · simp [hnd]
      · simp [hnd]
    · exact hnvis

theorem drelax_mid {n : Nat} {s d cur : Nat × Nat} {st : DState (Nat × Nat)}
    {nb : Nat × Nat} (hcur_in : inGrid n cur) (hnb : nb ∈ gridNeighbors n [] cur)
    (h : DMid n s cur st) :
    DMid n s cur (drelax d cur st nb) ∧
    (∀ v, st.dist v ≠ none → (drelax d cur st nb).dist v = st.dist v) ∧
    ((drelax d cur st nb).dist nb ≠ none) ∧
    (∀ e ∈ st.queue, e ∈ (drelax d cur st nb).queue) ∧
    (∀ v ∈ st.visited, v ∈ (drelax d cur st nb).visited) ∧
    ((cells n).countP (fun v => ((drelax d cur st nb).dist v).isNone) +
        (drelax d cur st nb).queue.length =
      (cells n).countP (fun v => (st.dist v).isNone) + st.queue.length) ∧
    (∀ v, Popped (drelax d cur st nb) v → Popped st v) := by
  have hadjpair := gridNeighbors_adj hcur_in hnb
  have hadj : manhatten_distance cur nb = 1 := hadjpair.1
  have hnbgrid : inGrid n nb := hadjpair.2
  have hvisq : nb ∈ st.visited → st.dist nb ≠ none := by
    intro hvis
    obtain ⟨e, he, hev⟩ := (h.sync nb).mp hvis
    rw [← hev]
    rw [(h.queue_exact e he).1]
    simp
  rcases drelax_ctx h.cur_dist hadj (fun v k hk => (h.dist_exact v k hk).1) hvisq with
    ⟨hdisc, heq⟩ | ⟨hfresh, heq⟩
  · rw [heq]
    refine ⟨h, fun v _ => rfl, hdisc, fun e he => he, fun v hv => hv, rfl, fun v hv => hv⟩
  · have hD : manhatten_distance s nb = manhatten_distance s cur + 1 :=
      h.fresh_far nb hadj hnbgrid hfresh
    have hnvis : nb ∉ st.visited := fun hv => hvisq hv hfresh
    have hnq : ∀ e ∈ st.queue, e.2.2 ≠ nb := by
      intro e he hev
      have := (h.queue_exact e he).1
      rw [hev, hfresh] at this
      cases this
    have hcurne : cur ≠ nb := by
      intro hc
      rw [← hc] at hfresh
      rw [h.cur_dist] at hfresh
      cases hfresh
    have hsne : s ≠ nb := by
      intro hc
      rw [← hc] at hfresh
      rw [h.dist_s] at hfresh
      cases hfresh
    rw [heq]
    refine ⟨?_, ?_, ?_, ?_, ?_, ?_, ?_⟩
    · constructor
      · dsimp only
        rw [if_neg hsne]
        exact h.dist_s
      · intro v k hk
        dsimp only at hk
        by_cases hv : v = nb
        · subst hv
          rw [if_pos rfl] at hk
          cases hk
          exact ⟨hD.symm, hnbgrid⟩
        · rw [if_neg hv] at hk
          exact h.dist_exact v k hk
      · intro e he
        dsimp only at he ⊢
        rcases List.mem_append.mp he with he | he
        · have hold := h.queue_exact e he
          rw [if_neg (hnq e he)]
          exact hold
        · rcases List.mem_singleton.mp he with rfl
          dsimp only
          rw [if_pos rfl]
          exact ⟨rfl, hD.symm⟩
      · intro x
        dsimp only
        constructor
        · intro hx
          rcases List.mem_cons.mp hx with rfl | hx
          · exact ⟨(manhatten_distance s cur + 1, st.count + 1, x), by simp, rfl⟩
          · obtain ⟨e, he, hev⟩ := (h.sync x).mp hx
            exact ⟨e, List.mem_append.mpr (Or.inl he), hev⟩
        · rintro ⟨e, he, hev⟩
          rcases List.mem_append.mp he with he | he
          · exact List.mem_cons_of_mem _ ((h.sync x).mpr ⟨e, he, hev⟩)
          · rcases List.mem_singleton.mp he with rfl
            rw [← hev]
            exact List.mem_cons_self _ _
      · dsimp only
        exact List.nodup_cons.mpr ⟨hnvis, h.vis_nodup⟩
      · dsimp only
        rw [List.map_append]
        rw [List.nodup_append]
        refine ⟨h.q_nodup, List.nodup_singleton _, ?_⟩
        intro x hx
        simp only [List.map_map, List.mem_map] at hx
        obtain ⟨e, he, hev⟩ := hx
        simp only [List.map_cons, List.map_nil, List.mem_singleton]
        intro hxnb
        exact hnq e he (hev.trans hxnb)
      · intro v hv1 hv2 hv3 w hw
        dsimp only at hv1 hv2 ⊢
        by_cases hveq : v = nb
        · subst hveq
          exact absurd (List.mem_cons_self _ _) hv2
        · rw [if_neg hveq] at hv1
          have hv2' : v ∉ st.visited := fun hc => hv2 (List.mem_cons_of_mem _ hc)
          have := h.popped_nbrs v hv1 hv2' hv3 w hw
          by_cases hweq : w = nb
          · subst hweq
            rw [if_pos rfl]
            simp
          · rw [if_neg hweq]
            exact this
      · dsimp only
        rw [cfFind_cons, if_neg hsne]
        exact h.cf_s
      · intro v k hv hk
        dsimp only at hk ⊢
        by_cases hveq : v = nb
        · subst hveq
          rw [if_pos rfl] at hk
          refine ⟨cur, ?_, ?_, ?_⟩
          · rw [cfFind_cons, if_pos rfl]
          · omega
          · show (if cur = v then some (manhatten_distance s cur + 1) else st.dist cur) ≠ none
            rw [if_neg hcurne, h.cur_dist]
            simp
        · rw [if_neg hveq] at hk
          obtain ⟨p, hp1, hp2, hp3⟩ := h.cf_chain v k hv hk
          refine ⟨p, ?_, hp2, ?_⟩
          · rw [cfFind_cons, if_neg hveq]
            exact hp1
          · by_cases hpeq : p = nb
            · subst hpeq
              rw [if_pos rfl]
              simp
            · rw [if_neg hpeq]
              exact hp3
      · dsimp only
        unfold pathMarkCount
        rw [List.filter_append, List.length_append]
        have h2 : ((if nb = d then [] else [(nb, Mark.visiting)]).filter
            (fun p => decide (p.2 = Mark.path))).length = 0 := by
          by_cases hnd : nb = d
          · simp [hnd]
          · simp [hnd]
        rw [h2]
        have h1 := h.log_clean
        unfold pathMarkCount at h1
        omega
      · dsimp only
        rw [if_neg hcurne]
        exact h.cur_dist
      · intro v hv1 hv2 hv3
        dsimp only at hv3
        by_cases hveq : v = nb
        · rw [if_pos hveq] at hv3
          cases hv3
        · rw [if_neg hveq] at hv3
          exact h.fresh_far v hv1 hv2 hv3
    · intro v hv
      dsimp only
      rw [if_neg]
      intro hc
      subst hc
      exact hv hfresh
    · dsimp only
      rw [if_pos rfl]
      simp
    · intro e he
      dsimp only
      exact List.mem_append.mpr (Or.inl he)
    · intro v hv
      dsimp only
      exact List.mem_cons_of_mem _ hv
    · dsimp only
      rw [List.length_append]
      have hflip : (cells n).countP (fun v => (st.dist v).isNone) =
          (cells n).countP
            (fun v => (if v = nb then some (manhatten_distance s cur + 1)
              else st.dist v).isNone) + 1 := by
        refine countP_flip_one (cells n) _ _ nb (cells_nodup n) (mem_cells.mpr hnbgrid) ?_ ?_ ?_
        · rw [hfresh]; rfl
        · rw [if_pos rfl]; rfl
        · intro y hy hyn
          rw [if_neg hyn]
      rw [hflip]
      simp
      omega
    · intro v hv
      obtain ⟨hv1, hv2⟩ := hv
      dsimp only at hv1 hv2
      by_cases hveq : v = nb
      · subst hveq
        exact absurd (List.mem_cons_self _ _) hv2
      · rw [if_neg hveq] at hv1
        exact ⟨hv1, fun hc => hv2 (List.mem_cons_of_mem _ hc)⟩

theorem fold_mid {n : Nat} {s d cur : Nat × Nat} (hcur_in : inGrid n cur) :
    ∀ (l : List (Nat × Nat)) (st : DState (Nat × Nat)),
      (∀ x ∈ l, x ∈ gridNeighbors n [] cur) → DMid n s cur st →
      DMid n s cur (l.foldl (drelax d cur) st) ∧
      (∀ v, st.dist v ≠ none → (l.foldl (drelax d cur) st).dist v = st.dist v) ∧
      (∀ x ∈ l, (l.foldl (drelax d cur) st).dist x ≠ none) ∧
      (∀ e ∈ st.queue, e ∈ (l.foldl (drelax d cur) st).queue) ∧
      (∀ v ∈ st.visited, v ∈ (l.foldl (drelax d cur) st).visited) ∧
      ((cells n).countP (fun v => ((l.foldl (drelax d cur) st).dist v).isNone) +
          (l.foldl (drelax d cur) st).queue.length =
        (cells n).countP (fun v => (st.dist v).isNone) + st.queue.length) ∧
      (∀ v, Popped (l.foldl (drelax d cur) st) v → Popped st v) := by
  intro l
  induction l with
  | nil =>
    intro st hl h
    exact ⟨h, fun v _ => rfl, fun x hx => absurd hx (List.not_mem_nil x),
      fun e he => he, fun v hv => hv, rfl, fun v hv => hv⟩
  | cons x xs ih =>
    intro st hl h
    have hx := hl x (List.mem_cons_self x xs)
    obtain ⟨h1, h2, h3, h4, h5, h6, h7⟩ := drelax_mid hcur_in hx h
    have hxs : ∀ y ∈ xs, y ∈ gridNeighbors n [] cur :=
      fun y hy => hl y (List.mem_cons_of_mem _ hy)
    obtain ⟨g1, g2, g3, g4, g5, g6, g7⟩ := ih (drelax d cur st x) hxs h1
    rw [List.foldl_cons]
    refine ⟨g1, ?_, ?_, ?_, ?_, ?_, ?_⟩
    · intro v hv
      rw [g2 v (by rw [h2 v hv]; exact hv), h2 v hv]
    · intro y hy
      rcases List.mem_cons.mp hy with rfl | hy
      · rw [g2 y h3]
        exact h3
      · exact g3 y hy
    · intro e he
      exact g4 e (h4 e he)
    · intro v hv
      exact g5 v (h5 v hv)
    · rw [g6, h6]
    · intro v hv
      exact h7 v (g7 v hv)

theorem pathMarkCount_append {V : Type} (a b : List (V × Mark)) :
    pathMarkCount (a ++ b) = pathMarkCount a + pathMarkCount b := by
  unfold pathMarkCount
  rw [List.filter_append, List.length_append]

/-- With an exact one-step-toward-the-source predecessor map, path
reconstruction from a discovered vertex at distance `k` terminates within
any fuel above `k` and issues exactly `k` `make_path` calls. -/
theorem chain_reconstruct {s : Nat × Nat} {cf : List ((Nat × Nat) × (Nat × Nat))}
    {dist : Nat × Nat → Option Nat}
    (hcf_s : cfFind cf s = none)
    (hchain : ∀ v k, v ≠ s → dist v = some k →
      ∃ p, cfFind cf v = some p ∧
        manhatten_distance s p + 1 = manhatten_distance s v ∧ dist p ≠ none) :
    ∀ (k : Nat) (v : Nat × Nat) (fuel : Nat), manhatten_distance s v = k →
      dist v ≠ none → k < fuel →
      ∃ marks, reconstructLoop cf fuel v = some marks ∧
        pathMarkCount marks = k := by
  intro k
  induction k with
  | zero =>
    intro v fuel hmv hdv hk
    have hvs : v = s := ((mh_eq_zero s v).mp hmv).symm
    obtain ⟨f, rfl⟩ : ∃ f, fuel = f + 1 := ⟨fuel - 1, by omega⟩
    subst hvs
    refine ⟨[], ?_, rfl⟩
    rw [reconstructLoop, hcf_s]
  | succ k ihk =>
    intro v fuel hmv hdv hk
    obtain ⟨f, rfl⟩ : ∃ f, fuel = f + 1 := ⟨fuel - 1, by omega⟩
    have hvs : v ≠ s := by
      intro hc
      subst hc
      rw [mh_self] at hmv
      cases hmv
    cases hdvk : dist v with
    | none => exact absurd hdvk hdv
    | some k2 =>
      obtain ⟨p, hp1, hp2, hp3⟩ := hchain v k2 hvs hdvk
      have hmp : manhatten_distance s p = k := by omega
      obtain ⟨marks, hm, hmc⟩ := ihk p f hmp hp3 (by omega)
      refine ⟨(p, Mark.path) :: marks, ?_, ?_⟩
      · rw [reconstructLoop, hp1]
        dsimp only
        rw [hm]
      · unfold pathMarkCount at hmc ⊢
        simp [List.filter_cons, hmc]

/-- The `BEq` instance `dloop` uses for `List.erase` (derived from
`DecidableEq`) agrees with the structure `BEq` instance on pairs. -/
theorem beq_inst (a v : Nat × Nat) :
    (@BEq.beq _ instBEqOfDecidableEq a v) = (a == v) := by
  show decide (a = v) = (a.1 == v.1 && a.2 == v.2)
  by_cases h1 : a.1 = v.1 <;> by_cases h2 : a.2 = v.2 <;>
    simp [Prod.ext_iff, h1, h2]

/-- `List.erase` does not depend on which of the two `BEq` instances is
used. -/
theorem erase_inst (l : List (Nat × Nat)) (v : Nat × Nat) :
    @List.erase (Nat × Nat) instBEqOfDecidableEq l v = l.erase v := by
  induction l with
  | nil => rfl
  | cons a as ihe =>
    rw [@List.erase_cons (Nat × Nat) instBEqOfDecidableEq, List.erase_cons, ihe, beq_inst]

/-- Main induction for `dijkstra` on the wall-free grid: from any state
satisfying the invariant in which the destination has not been popped, with
fuel covering the measure plus the reconstruction, the loop reaches the
destination and issues exactly `manhatten_distance s d` path marks. -/
theorem dloop_optimal {n : Nat} {s d : Nat × Nat} (hs : inGrid n s) (hd : inGrid n d) :
    ∀ (fuel : Nat) (sigs : List Bool) (st : DState (Nat × Nat)),
      DInv n s st → ¬ Popped st d →
      dmeasure n st + manhatten_distance s d + 2 ≤ fuel →
      ∃ tr stf, dloop (gridNeighbors n []) s d fuel sigs st = some (true, tr, stf) ∧
        pathMarkCount stf.log = manhatten_distance s d := by
  intro fuel
  induction fuel using Nat.strong_induction_on with
  | _ fuel ih =>
    intro sigs st hinv hdun hfuel
    obtain ⟨f, rfl⟩ : ∃ f, fuel = f + 1 := ⟨fuel - 1, by omega⟩
    have hqne : st.queue ≠ [] := by
      intro hq
      refine hdun ?_
      have := dinv_complete hs hinv d hd (fun e he => by rw [hq] at he; cases he)
      exact ⟨by rw [this.1]; simp, this.2⟩
    cases hpop : popMin st.queue with
    | none => exact absurd ((popMin_eq_none _).mp hpop) hqne
    | some pr =>
      obtain ⟨e, rest⟩ := pr
      have hemem := popMin_mem _ _ _ hpop
      have hperm := popMin_perm _ _ _ hpop
      have hue := hinv.queue_exact e hemem
      have huvis : e.2.2 ∈ st.visited := (hinv.sync e.2.2).mpr ⟨e, hemem, rfl⟩
      have hugrid : inGrid n e.2.2 := (hinv.dist_exact e.2.2 e.1 hue.1).2
      have hudist : st.dist e.2.2 = some (manhatten_distance s e.2.2) := by
        rw [hue.1, hue.2]
      have hkeymin : ∀ x ∈ st.queue, e.1 ≤ x.1 := by
        intro x hx
        have := popMin_lex_min st.queue e rest hpop x hx
        rw [entryLe_iff] at this
        omega
      rw [dloop_succ, hpop]
      dsimp only
      by_cases hud : e.2.2 = d
      · rw [if_pos hud]
        have hddist : st.dist d ≠ none := by
          rw [← hud, hudist]
          simp
        have hflt : manhatten_distance s d < f := by
          have hm1 : 1 ≤ st.queue.length := by
            cases hq : st.queue with
            | nil => exact absurd hq hqne
            | cons a as => simp
          unfold dmeasure at hfuel
          omega
        obtain ⟨marks, hm, hmc⟩ := chain_reconstruct hinv.cf_s hinv.cf_chain
          (manhatten_distance s d) d f rfl hddist hflt
        rw [hm]
        refine ⟨[e.2.2], _, rfl, ?_⟩
        rw [pathMarkCount_append, pathMarkCount_append]
        rw [hinv.log_clean, hmc]
        have hz : pathMarkCount ([((s : Nat × Nat), Mark.startMark)]) = 0 := rfl
        rw [hz]
        omega
      · rw [if_neg hud]
        have hmid : DMid n s e.2.2
            { st with
              quitCalled := st.quitCalled || sigs.headD false
              queue := rest
              visited := st.visited.erase e.2.2 } := by
          have hrest_sub : ∀ e' ∈ rest, e' ∈ st.queue := by
            intro e' he'
            exact hperm.subset (List.mem_cons_of_mem _ he')
          have hqmapnd : (List.map (fun e => e.2.2) (e :: rest)).Nodup := by
            refine (List.Perm.nodup_iff (hperm.map (fun e => e.2.2))).mpr hinv.q_nodup
          have hu_notin_rest : e.2.2 ∉ rest.map (fun e => e.2.2) := by
            rw [List.map_cons] at hqmapnd
            exact (List.nodup_cons.mp hqmapnd).1
          refine ⟨hinv.dist_s, hinv.dist_exact, ?_, ?_, ?_, ?_, ?_, hinv.cf_s,
            hinv.cf_chain, hinv.log_clean, hudist, ?_⟩
          · intro e' he'
            exact hinv.queue_exact e' (hrest_sub e' he')
          · intro x
            dsimp only
            rw [List.Nodup.mem_erase_iff hinv.vis_nodup]
            constructor
            · rintro ⟨hxu, hxv⟩
              obtain ⟨e', he', hev⟩ := (hinv.sync x).mp hxv
              have : e' ∈ e :: rest := hperm.symm.subset he'
              rcases List.mem_cons.mp this with rfl | he''
              · exact absurd hev.symm (by rw [hev] at hxu ⊢; exact fun hc => hxu hc.symm)
              · exact ⟨e', he'', hev⟩
            · rintro ⟨e', he', hev⟩
              have hxv : x ∈ st.visited :=
                (hinv.sync x).mpr ⟨e', hrest_sub e' he', hev⟩
              refine ⟨?_, hxv⟩
              intro hxu
              refine hu_notin_rest ?_
              rw [← hxu, ← hev]
              exact List.mem_map_of_mem _ he'
          · exact hinv.vis_nodup.erase _
          · dsimp only
            rw [List.map_cons] at hqmapnd
            exact (List.nodup_cons.mp hqmapnd).2
          · intro v hv1 hv2 hv3 w hw
            dsimp only at hv1 hv2 ⊢
            have hv2' : v ∉ st.visited := by
              intro hc
              exact hv2 ((List.Nodup.mem_erase_iff hinv.vis_nodup).mpr ⟨hv3, hc⟩)
            exact hinv.popped_nbrs v hv1 hv2' w hw
          · intro v hadj hvgrid hvfresh
            rcases mh_adj s e.2.2 v hadj with h | h
            · exact h
            · exfalso
              have hcond : ∀ e' ∈ st.queue, manhatten_distance s v < e'.1 := by
                intro e' he'
                have hkm := hkeymin e' he'
                rw [hue.2] at hkm
                omega
              have := dinv_complete hs hinv v hvgrid hcond
              rw [this.1] at hvfresh
              cases hvfresh
        obtain ⟨hmid3, hmono, hdisc, hqsub, hvsub, hmeas, hpop3⟩ :=
          fold_mid (d := d) hugrid (gridNeighbors n [] e.2.2)
            { st with
              quitCalled := st.quitCalled || sigs.headD false
              queue := rest
              visited := st.visited.erase e.2.2 }
            (fun x hx => hx) hmid
        set stMid := (gridNeighbors n [] e.2.2).foldl (drelax d e.2.2)
          { st with
            quitCalled := st.quitCalled || sigs.headD false
            queue := rest
            visited := st.visited.erase e.2.2 } with hmiddef
        have hinv4 : ∀ (st4 : DState (Nat × Nat)),
            st4.dist = stMid.dist → st4.queue = stMid.queue →
            st4.visited = stMid.visited → st4.came_from = stMid.came_from →
            pathMarkCount st4.log = 0 → DInv n s st4 := by
          intro st4 h1 h2 h3 h4 h5
          refine ⟨?_, ?_, ?_, ?_, ?_, ?_, ?_, ?_, ?_, h5⟩
          · rw [h1]; exact hmid3.dist_s
          · rw [h1]; exact hmid3.dist_exact
          · rw [h1, h2]; exact hmid3.queue_exact
          · rw [h2, h3]; exact hmid3.sync
          · rw [h3]; exact hmid3.vis_nodup
          · rw [h2]; exact hmid3.q_nodup
          · rw [h1, h3]
            intro v hv1 hv2 w hw
            by_cases hvu : v = e.2.2
            · subst hvu
              exact hdisc w hw
            · exact hmid3.popped_nbrs v hv1 hv2 hvu w hw
          · rw [h4]; exact hmid3.cf_s
          · rw [h1, h4]; exact hmid3.cf_chain
        have hdun4 : ∀ (st4 : DState (Nat × Nat)),
            st4.dist = stMid.dist → st4.visited = stMid.visited → ¬ Popped st4 d := by
          intro st4 h1 h3 hp
          have hpmid : Popped stMid d := by
            obtain ⟨hp1, hp2⟩ := hp
            rw [h1] at hp1
            rw [h3] at hp2
            exact ⟨hp1, hp2⟩
          obtain ⟨hp1, hp2⟩ := hpop3 d hpmid
          dsimp only at hp1 hp2
          refine hdun ⟨hp1, ?_⟩
          intro hc
          exact hp2 ((List.Nodup.mem_erase_iff hinv.vis_nodup).mpr
            ⟨fun h => hud h.symm, hc⟩)
        have hlen : st.queue.length = rest.length + 1 := by
          have hpl := hperm.length_eq
          simp only [List.length_cons] at hpl
          omega
        have hmeas4 : dmeasure n stMid + 1 ≤ dmeasure n st := by
          unfold dmeasure
          have hm2 := hmeas
          dsimp only at hm2
          omega
        by_cases hus : e.2.2 = s
        · rw [if_pos hus]
          obtain ⟨tr', stf', hrec, hcnt⟩ := ih f (by omega) sigs.tail stMid
            (hinv4 stMid rfl rfl rfl rfl hmid3.log_clean)
            (hdun4 stMid rfl rfl) (by omega)
          rw [erase_inst, ← hmiddef, hrec]
          exact ⟨e.2.2 :: tr', stf', rfl, hcnt⟩
        · rw [if_neg hus]
          have hlog4 : pathMarkCount (stMid.log ++ [(e.2.2, Mark.visited)]) = 0 := by
            rw [pathMarkCount_append, hmid3.log_clean]
            rfl
          obtain ⟨tr', stf', hrec, hcnt⟩ := ih f (by omega) sigs.tail
            { stMid with log := stMid.log ++ [(e.2.2, Mark.visited)] }
            (hinv4 _ rfl rfl rfl rfl hlog4)
            (hdun4 _ rfl rfl)
            (by
              have : dmeasure n { stMid with log := stMid.log ++ [(e.2.2, Mark.visited)] } =
                  dmeasure n stMid := rfl
              omega)
          rw [erase_inst, ← hmiddef, hrec]
          exact ⟨e.2.2 :: tr', stf', rfl, hcnt⟩

/-- The destination belongs to the `s`-`d` box. -/
theorem box_dest (s d : Nat × Nat) : Box s d d := by
  unfold Box
  rw [mh_self]
  omega

/-- The source belongs to the `s`-`d` box. -/
theorem box_self (s d : Nat × Nat) : Box s d s := by
  unfold Box
  rw [mh_self]
  omega

/-- Stepping one unit toward the source from a vertex of the `s`-`d` box
stays in the box. -/
theorem box_pred {s d v w : Nat × Nat} (hv : Box s d v)
    (hadj : manhatten_distance v w = 1)
    (hlvl : manhatten_distance s w + 1 = manhatten_distance s v) : Box s d w := by
  unfold Box at *
  have hadj2 : manhatten_distance w v = 1 := by rw [mh_comm]; exact hadj
  have t1 := mh_triangle w v d
  have t2 := mh_triangle s w d
  omega

/-- Stepping one unit toward the destination from a vertex of the `s`-`d`
box stays in the box and increases the source distance by one. -/
theorem box_succ {s d v w : Nat × Nat} (hv : Box s d v)
    (hadj : manhatten_distance v w = 1)
    (hlvl : manhatten_distance w d + 1 = manhatten_distance v d) :
    Box s d w ∧ manhatten_distance s w = manhatten_distance s v + 1 := by
  unfold Box at *
  have t1 := mh_triangle s v w
  have t2 := mh_triangle s w d
  refine ⟨by omega, by omega⟩

/-- Bound on in-grid Manhattan distances. -/
theorem mh_bound {n : Nat} {s d : Nat × Nat} (hs : inGrid n s) (hd : inGrid n d) :
    manhatten_distance s d + 2 ≤ 2 * n := by
  obtain ⟨h1, h2⟩ := hs
  obtain ⟨h3, h4⟩ := hd
  unfold manhatten_distance
  omega

/-- The n by n grid has n * n cells. -/
theorem cells_length (n : Nat) : (cells n).length = n * n := by
  unfold cells
  rw [List.length_flatMap]
  have hmap : (List.range n).map (List.length ∘ fun r => (List.range n).map (fun c => (r, c))) =
      (List.range n).map (fun _ => n) := by
    refine List.map_congr_left ?_
    intro r _
    simp
  rw [hmap]
  rw [List.map_const']
  rw [List.sum_replicate]
  rw [List.length_range]
  simp [Nat.mul_comm]

/-- Under the exactness invariant, one A* relaxation is either a no-op (the
neighbor is already discovered, and a unit step can never improve an exact
g_score) or the full fresh-discovery insertion, keyed by the exact f_score
of the neighbor. -/
theorem arelax_ctx {s d cur : Nat × Nat} {st : AState (Nat × Nat)} {nb : Nat × Nat}
    (hcur : st.g_score cur = some (manhatten_distance s cur))
    (hadj : manhatten_distance cur nb = 1)
    (hexact : ∀ v k, st.g_score v = some k → k = manhatten_distance s v)
    (hvisq : nb ∈ st.open_set → st.g_score nb ≠ none) :
    (st.g_score nb ≠ none ∧ arelax get_position d cur st nb = st) ∨
    (st.g_score nb = none ∧
      arelax get_position d cur st nb = { st with
        came_from := (nb, cur) :: st.came_from
        g_score := fun v =>
          if v = nb then some (manhatten_distance s cur + 1) else st.g_score v
        f_score := fun v =>
          if v = nb then
            some (manhatten_distance s cur + 1 + manhatten_distance nb d)
          else st.f_score v
        count := st.count + 1
        queue := st.queue ++
          [(manhatten_distance s cur + 1 + manhatten_distance nb d, st.count + 1, nb)]
        open_set := nb :: st.open_set
        log := st.log ++ (if nb = d then [] else [(nb, Mark.visiting)]) }) := by
  cases hnb : st.g_score nb with
  | some k =>
    left
    refine ⟨by simp [hnb], ?_⟩
    have hk : k = manhatten_distance s nb := hexact nb k hnb
    have htri : manhatten_distance s nb ≤ manhatten_distance s cur + 1 := by
      have := mh_triangle s cur nb
      omega
    have hlt : costLt (manhatten_distance s cur + 1) (st.g_score nb) = false := by
      rw [hnb]
      unfold costLt
      simp
      omega
    unfold arelax
    rw [hcur]
    dsimp only
    rw [hlt]
    simp
  | none =>
    right
    refine ⟨rfl, ?_⟩
    have hnvis : nb ∉ st.open_set := fun h => hvisq h hnb
    have hlt : costLt (manhatten_distance s cur + 1) (st.g_score nb) = true := by
      rw [hnb]; rfl
    unfold arelax
    rw [hcur]
    dsimp only
    rw [hlt]
    simp only [if_true]
    rw [if_neg hnvis]
    by_cases hnd : nb = d
    · simp [hnd, get_position]
    · simp [hnd, get_position]

theorem arelax_mid {n : Nat} {s d cur : Nat × Nat} {st : AState (Nat × Nat)}
    {nb : Nat × Nat} (hnb : nb ∈ gridNeighbors n [] cur)
    (h : AMid n s d cur st) :
    AMid n s d cur (arelax get_position d cur st nb) ∧
    (∀ v, st.g_score v ≠ none →
      (arelax get_position d cur st nb).g_score v = st.g_score v) ∧
    ((arelax get_position d cur st nb).g_score nb ≠ none) ∧
    (∀ e ∈ st.queue, e ∈ (arelax get_position d cur st nb).queue) ∧
    (∀ v ∈ st.open_set, v ∈ (arelax get_position d cur st nb).open_set) ∧
    ((cells n).countP (fun v => ((arelax get_position d cur st nb).g_score v).isNone) +
        (arelax get_position d cur st nb).queue.length =
      (cells n).countP (fun v => (st.g_score v).isNone) + st.queue.length) ∧
    (∀ v, APopped (arelax get_position d cur st nb) v → APopped st v) := by
  have hadjpair := gridNeighbors_adj h.cur_grid hnb
  have hadj : manhatten_distance cur nb = 1 := hadjpair.1
  have hnbgrid : inGrid n nb := hadjpair.2
  have hvisq : nb ∈ st.open_set → st.g_score nb ≠ none := by
    intro hvis
    obtain ⟨e, he, hev⟩ := (h.sync nb).mp hvis
    rw [← hev, (h.queue_exact e he).1]
    simp
  rcases arelax_ctx h.cur_g hadj (fun v k hk => (h.g_exact v k hk).1) hvisq with
    ⟨hdisc, heq⟩ | ⟨hfresh, heq⟩
  · rw [heq]
    exact ⟨h, fun v _ => rfl, hdisc, fun e he => he, fun v hv => hv, rfl, fun v hv => hv⟩
  · have hD : manhatten_distance s nb = manhatten_distance s cur + 1 :=
      h.fresh_far nb hadj hnbgrid hfresh
    have hnvis : nb ∉ st.open_set := fun hv => hvisq hv hfresh
    have hnq : ∀ e ∈ st.queue, e.2.2 ≠ nb := by
      intro e he hev
      have := (h.queue_exact e he).1
      rw [hev, hfresh] at this
      cases this
    have hcurne : cur ≠ nb := by
      intro hc
      rw [← hc] at hfresh
      rw [h.cur_g] at hfresh
      cases hfresh
    have hsne : s ≠ nb := by
      intro hc
      rw [← hc] at hfresh
      rw [h.g_s] at hfresh
      cases hfresh
    rw [heq]
    refine ⟨?_, ?_, ?_, ?_, ?_, ?_, ?_⟩
    · constructor
      · dsimp only
        rw [if_neg hsne]
        exact h.g_s
      · intro v k hk
        dsimp only at hk
        by_cases hv : v = nb
        · subst hv
          rw [if_pos rfl] at hk
          cases hk
          exact ⟨hD.symm, hnbgrid⟩
        · rw [if_neg hv] at hk
          exact h.g_exact v k hk
      · intro e he
        dsimp only at he ⊢
        rcases List.mem_append.mp he with he | he
        · have hold := h.queue_exact e he
          rw [if_neg (hnq e he)]
          exact hold
        · rcases List.mem_singleton.mp he with rfl
          dsimp only
          rw [if_pos rfl, hD]
          exact ⟨rfl, rfl⟩
      · intro x
        dsimp only
        constructor
        · intro hx
          rcases List.mem_cons.mp hx with hxe | hx
          · refine ⟨(manhatten_distance s cur + 1 + manhatten_distance nb d,
              st.count + 1, nb), by simp, ?_⟩
            exact hxe.symm
          · obtain ⟨e, he, hev⟩ := (h.sync x).mp hx
            exact ⟨e, List.mem_append.mpr (Or.inl he), hev⟩
        · rintro ⟨e, he, hev⟩
          rcases List.mem_append.mp he with he | he
          · exact List.mem_cons_of_mem _ ((h.sync x).mpr ⟨e, he, hev⟩)
          · rcases List.mem_singleton.mp he with rfl
            rw [← hev]
            exact List.mem_cons_self _ _
      · dsimp only
        exact List.nodup_cons.mpr ⟨hnvis, h.vis_nodup⟩
      · dsimp only
        rw [List.map_append]
        rw [List.nodup_append]
        refine ⟨h.q_nodup, List.nodup_singleton _, ?_⟩
        intro x hx
        simp only [List.map_map, List.mem_map] at hx
        obtain ⟨e, he, hev⟩ := hx
        simp only [List.map_cons, List.map_nil, List.mem_singleton]
        intro hxnb
        exact hnq e he (hev.trans hxnb)
      · dsimp only
        rw [List.map_append]
        rw [List.nodup_append]
        refine ⟨h.cnt_nodup, List.nodup_singleton _, ?_⟩
        intro x hx
        simp only [List.map_map, List.mem_map] at hx
        obtain ⟨e, he, hev⟩ := hx
        simp only [List.map_cons, List.map_nil, List.mem_singleton]
        intro hxc
        have hb := h.cnt_bound e he
        rw [hev, hxc] at hb
        omega
      · intro e he
        dsimp only at he ⊢
        rcases List.mem_append.mp he with he | he
        · have := h.cnt_bound e he
          omega
        · rcases List.mem_singleton.mp he with rfl
          dsimp only
          omega
      · intro v hv1 hv2 hv3 w hw
        dsimp only at hv1 hv2 ⊢
        by_cases hveq : v = nb
        · subst hveq
          exact absurd (List.mem_cons_self _ _) hv2
        · rw [if_neg hveq] at hv1
          have hv2n : v ∉ st.open_set := fun hc => hv2 (List.mem_cons_of_mem _ hc)
          have := h.popped_nbrs v hv1 hv2n hv3 w hw
          by_cases hweq : w = nb
          · subst hweq
            rw [if_pos rfl]
            simp
          · rw [if_neg hweq]
            exact this
      · intro v hv1 hv2 hv3
        dsimp only at hv1 hv2
        by_cases hveq : v = nb
        · subst hveq
          exact absurd (List.mem_cons_self _ _) hv2
        · rw [if_neg hveq] at hv1
          exact h.popped_le_cur v hv1 (fun hc => hv2 (List.mem_cons_of_mem _ hc)) hv3
      · intro e1 he1 e2 he2 hb1 hb2 hc
        dsimp only at he1 he2
        rcases List.mem_append.mp he1 with he1 | he1
        · rcases List.mem_append.mp he2 with he2 | he2
          · exact h.mono_level e1 he1 e2 he2 hb1 hb2 hc
          · rcases List.mem_singleton.mp he2 with rfl
            have := h.window_cur e1 he1 hb1
            dsimp only
            rw [hD]
            omega
        · rcases List.mem_singleton.mp he1 with rfl
          rcases List.mem_append.mp he2 with he2 | he2
          · have := h.cnt_bound e2 he2
            dsimp only at hc
            omega
          · rcases List.mem_singleton.mp he2 with rfl
            dsimp only at hc
            omega
      · intro e he hb
        dsimp only at he
        rcases List.mem_append.mp he with he | he
        · exact h.cur_level_le e he hb
        · rcases List.mem_singleton.mp he with rfl
          dsimp only
          rw [hD]
          omega
      · intro e he hb
        dsimp only at he
        rcases List.mem_append.mp he with he | he
        · exact h.window_cur e he hb
        · rcases List.mem_singleton.mp he with rfl
          dsimp only
          rw [hD]
      · intro w hwb hwg hwl
        dsimp only
        by_cases hweq : w = nb
        · rw [if_pos hweq]
          simp
        · rw [if_neg hweq]
          exact h.disc_all w hwb hwg hwl
      · dsimp only
        rw [cfFind_cons, if_neg hsne]
        exact h.cf_s
      · intro v k hv hk
        dsimp only at hk ⊢
        by_cases hveq : v = nb
        · subst hveq
          rw [if_pos rfl] at hk
          refine ⟨cur, ?_, ?_, ?_⟩
          · rw [cfFind_cons, if_pos rfl]
          · omega
          · show (if cur = v then some (manhatten_distance s cur + 1)
              else st.g_score cur) ≠ none
            rw [if_neg hcurne, h.cur_g]
            simp
        · rw [if_neg hveq] at hk
          obtain ⟨p, hp1, hp2, hp3⟩ := h.cf_chain v k hv hk
          refine ⟨p, ?_, hp2, ?_⟩
          · rw [cfFind_cons, if_neg hveq]
            exact hp1
          · by_cases hpeq : p = nb
            · subst hpeq
              rw [if_pos rfl]
              simp
            · rw [if_neg hpeq]
              exact hp3
      · dsimp only
        unfold pathMarkCount
        rw [List.filter_append, List.length_append]
        have h2 : ((if nb = d then [] else [(nb, Mark.visiting)]).filter
            (fun p => decide (p.2 = Mark.path))).length = 0 := by
          by_cases hnd : nb = d
          · simp [hnd]
          · simp [hnd]
        rw [h2]
        have h1 := h.log_clean
        unfold pathMarkCount at h1
        omega
      · dsimp only
        rw [if_neg hcurne]
        exact h.cur_g
      · exact h.cur_box
      · exact h.cur_grid
      · intro v hv1 hv2 hv3
        dsimp only at hv3
        by_cases hveq : v = nb
        · rw [if_pos hveq] at hv3
          cases hv3
        · rw [if_neg hveq] at hv3
          exact h.fresh_far v hv1 hv2 hv3
    · intro v hv
      dsimp only
      rw [if_neg]
      intro hc
      subst hc
      exact hv hfresh
    · dsimp only
      rw [if_pos rfl]
      simp
    · intro e he
      dsimp only
      exact List.mem_append.mpr (Or.inl he)
    · intro v hv
      dsimp only
      exact List.mem_cons_of_mem _ hv
    · dsimp only
      rw [List.length_append]
      have hflip : (cells n).countP (fun v => (st.g_score v).isNone) =
          (cells n).countP
            (fun v => (if v = nb then some (manhatten_distance s cur + 1)
              else st.g_score v).isNone) + 1 := by
        refine countP_flip_one (cells n) _ _ nb (cells_nodup n) (mem_cells.mpr hnbgrid) ?_ ?_ ?_
        · rw [hfresh]; rfl
        · rw [if_pos rfl]; rfl
        · intro y hy hyn
          rw [if_neg hyn]
      rw [hflip]
      simp
      omega
    · intro v hv
      obtain ⟨hv1, hv2⟩ := hv
      dsimp only at hv1 hv2
      by_cases hveq : v = nb
      · subst hveq
        exact absurd (List.mem_cons_self _ _) hv2
      · rw [if_neg hveq] at hv1
        exact ⟨hv1, fun hc => hv2 (List.mem_cons_of_mem _ hc)⟩

theorem afold_mid {n : Nat} {s d cur : Nat × Nat} :
    ∀ (l : List (Nat × Nat)) (st : AState (Nat × Nat)),
      (∀ x ∈ l, x ∈ gridNeighbors n [] cur) → AMid n s d cur st →
      AMid n s d cur (l.foldl (arelax get_position d cur) st) ∧
      (∀ v, st.g_score v ≠ none →
        (l.foldl (arelax get_position d cur) st).g_score v = st.g_score v) ∧
      (∀ x ∈ l, (l.foldl (arelax get_position d cur) st).g_score x ≠ none) ∧
      (∀ e ∈ st.queue, e ∈ (l.foldl (arelax get_position d cur) st).queue) ∧
      (∀ v ∈ st.open_set, v ∈ (l.foldl (arelax get_position d cur) st).open_set) ∧
      ((cells n).countP (fun v => ((l.foldl (arelax get_position d cur) st).g_score v).isNone) +
          (l.foldl (arelax get_position d cur) st).queue.length =
        (cells n).countP (fun v => (st.g_score v).isNone) + st.queue.length) ∧
      (∀ v, APopped (l.foldl (arelax get_position d cur) st) v → APopped st v) := by
  intro l
  induction l with
  | nil =>
    intro st hl h
    exact ⟨h, fun v _ => rfl, fun x hx => absurd hx (List.not_mem_nil x),
      fun e he => he, fun v hv => hv, rfl, fun v hv => hv⟩
  | cons x xs ih =>
    intro st hl h
    have hx := hl x (List.mem_cons_self x xs)
    obtain ⟨h1, h2, h3, h4, h5, h6, h7⟩ := arelax_mid hx h
    have hxs : ∀ y ∈ xs, y ∈ gridNeighbors n [] cur :=
      fun y hy => hl y (List.mem_cons_of_mem _ hy)
    obtain ⟨g1, g2, g3, g4, g5, g6, g7⟩ := ih (arelax get_position d cur st x) hxs h1
    rw [List.foldl_cons]
    refine ⟨g1, ?_, ?_, ?_, ?_, ?_, ?_⟩
    · intro v hv
      rw [g2 v (by rw [h2 v hv]; exact hv), h2 v hv]
    · intro y hy
      rcases List.mem_cons.mp hy with rfl | hy
      · rw [g2 y h3]
        exact h3
      · exact g3 y hy
    · intro e he
      exact g4 e (h4 e he)
    · intro v hv
      exact g5 v (h5 v hv)
    · rw [g6, h6]
    · intro v hv
      exact h7 v (g7 v hv)

/-- Restoration of the full A* invariant after the popped box vertex `cur`
has had all its grid neighbors relaxed. -/
theorem afold_restore {n : Nat} {s d : Nat × Nat} {cur : Nat × Nat}
    (hs : inGrid n s) (hd : inGrid n d) (hcd : cur ≠ d)
    {st2 : AState (Nat × Nat)} (hmid : AMid n s d cur st2) :
    AInv n s d ((gridNeighbors n [] cur).foldl (arelax get_position d cur) st2) ∧
    (APopped ((gridNeighbors n [] cur).foldl (arelax get_position d cur) st2) d →
      APopped st2 d) ∧
    ((cells n).countP (fun v =>
        (((gridNeighbors n [] cur).foldl (arelax get_position d cur) st2).g_score v).isNone) +
        ((gridNeighbors n [] cur).foldl (arelax get_position d cur) st2).queue.length =
      (cells n).countP (fun v => (st2.g_score v).isNone) + st2.queue.length) := by
  obtain ⟨hm, hmono, hdisc, hqsub, hvsub, hmeas, hpopsub⟩ :=
    afold_mid (gridNeighbors n [] cur) st2 (fun x hx => hx) hmid
  refine ⟨?_, hpopsub _, hmeas⟩
  constructor
  · exact hm.g_s
  · exact hm.g_exact
  · exact hm.queue_exact
  · exact hm.sync
  · exact hm.vis_nodup
  · exact hm.q_nodup
  · exact hm.cnt_nodup
  · exact hm.cnt_bound
  · intro v hv1 hv2 w hw
    by_cases hvc : v = cur
    · subst hvc
      exact hdisc w hw
    · exact hm.popped_nbrs v hv1 hv2 hvc w hw
  · intro v hv1 hv2 e he hb
    by_cases hvc : v = cur
    · subst hvc
      exact hm.cur_level_le e he hb
    · have h1 := hm.popped_le_cur v hv1 hv2 hvc
      have h2 := hm.cur_level_le e he hb
      omega
  · exact hm.mono_level
  · intro e1 he1 e2 he2 hb1 hb2
    have h1 := hm.window_cur e2 he2 hb2
    have h2 := hm.cur_level_le e1 he1 hb1
    omega
  · intro w hwb hwg e he hb hlt
    have h1 := hm.window_cur e he hb
    exact hm.disc_all w hwb hwg (by omega)
  · intro hgd
    obtain ⟨w, hwmem, hwlvl⟩ := step_toward hd hm.cur_grid hcd
    have hadjp := gridNeighbors_adj hm.cur_grid hwmem
    have hwlvl2 : manhatten_distance w d + 1 = manhatten_distance cur d := by
      rw [mh_comm w d, mh_comm cur d]
      exact hwlvl
    obtain ⟨hwbox, hwup⟩ := box_succ hm.cur_box hadjp.1 hwlvl2
    have hwdisc := hdisc w hwmem
    have hwcur : w ≠ cur := by
      intro hc
      rw [hc] at hwup
      omega
    have hwopen : w ∈ ((gridNeighbors n [] cur).foldl
        (arelax get_position d cur) st2).open_set := by
      by_contra hc
      have := hm.popped_le_cur w hwdisc hc hwcur
      omega
    obtain ⟨e, he, hev⟩ := (hm.sync w).mp hwopen
    refine ⟨e, he, ?_⟩
    rw [hev]
    exact hwbox
  · exact hm.cf_s
  · exact hm.cf_chain
  · exact hm.log_clean

/-- Main induction for `a_star_search` on the wall-free grid: from any state
satisfying the invariant in which the destination has not been popped, with
fuel covering the measure plus the reconstruction, the loop reaches the
destination and issues exactly `manhatten_distance s d` path marks. -/
theorem aloop_optimal {n : Nat} {s d : Nat × Nat} (hs : inGrid n s) (hd : inGrid n d) :
    ∀ (fuel : Nat) (sigs : List Bool) (st : AState (Nat × Nat)),
      AInv n s d st → ¬ APopped st d →
      ameasure n st + manhatten_distance s d + 2 ≤ fuel →
      ∃ tr stf, aloop get_position (gridNeighbors n []) s d fuel sigs st =
          some (true, tr, stf) ∧
        pathMarkCount stf.log = manhatten_distance s d := by
  intro fuel
  induction fuel using Nat.strong_induction_on with
  | _ fuel ih =>
    intro sigs st hinv hdun hfuel
    obtain ⟨f, rfl⟩ : ∃ f, fuel = f + 1 := ⟨fuel - 1, by omega⟩
    have hbe : ∃ eb ∈ st.queue, Box s d eb.2.2 := by
      cases hgd : st.g_score d with
      | none => exact hinv.box_live hgd
      | some k =>
        have hdopen : d ∈ st.open_set := by
          by_contra hc
          exact hdun ⟨by rw [hgd]; simp, hc⟩
        obtain ⟨e, he, hev⟩ := (hinv.sync d).mp hdopen
        refine ⟨e, he, ?_⟩
        rw [hev]
        exact box_dest s d
    obtain ⟨eb, hebq, hebbox⟩ := hbe
    have hqne : st.queue ≠ [] := by
      intro hq
      rw [hq] at hebq
      cases hebq
    cases hpop : popMin st.queue with
    | none => exact absurd ((popMin_eq_none _).mp hpop) hqne
    | some pr =>
      obtain ⟨e, rest⟩ := pr
      have hemem := popMin_mem _ _ _ hpop
      have hperm := popMin_perm _ _ _ hpop
      have hue := hinv.queue_exact e hemem
      have hue1 := hue.1
      have hue2 := hue.2
      have huvis : e.2.2 ∈ st.open_set := (hinv.sync e.2.2).mpr ⟨e, hemem, rfl⟩
      have hugrid : inGrid n e.2.2 :=
        (hinv.g_exact e.2.2 (manhatten_distance s e.2.2) hue1).2
      have hebkey : eb.1 = manhatten_distance s d := by
        have hq2 := (hinv.queue_exact eb hebq).2
        have hb := hebbox
        unfold Box at hb
        omega
      have hkeylow : manhatten_distance s d ≤ e.1 := by
        have ht := mh_triangle s e.2.2 d
        omega
      have hkeyM : e.1 = manhatten_distance s d := by
        have hle := popMin_lex_min st.queue e rest hpop eb hebq
        rw [entryLe_iff] at hle
        omega
      have hubox : Box s d e.2.2 := by
        unfold Box
        omega
      rw [aloop_succ, hpop]
      dsimp only
      by_cases hud : e.2.2 = d
      · rw [if_pos hud]
        have hddist : st.g_score d ≠ none := by
          rw [← hud, hue1]
          simp
        have hflt : manhatten_distance s d < f := by
          have hm1 : 1 ≤ st.queue.length := by
            cases hq : st.queue with
            | nil => exact absurd hq hqne
            | cons a as => simp
          unfold ameasure at hfuel
          omega
        obtain ⟨marks, hm, hmc⟩ := chain_reconstruct hinv.cf_s hinv.cf_chain
          (manhatten_distance s d) d f rfl hddist hflt
        rw [hm]
        refine ⟨[e.2.2], _, rfl, ?_⟩
        rw [pathMarkCount_append, pathMarkCount_append]
        rw [hinv.log_clean, hmc]
        have hz : pathMarkCount ([((s : Nat × Nat), Mark.startMark)]) = 0 := rfl
        rw [hz]
        omega
      · rw [if_neg hud]
        have hrest_sub : ∀ e2 ∈ rest, e2 ∈ st.queue := by
          intro e2 he2
          exact hperm.subset (List.mem_cons_of_mem _ he2)
        have hqmapnd : (List.map (fun e => e.2.2) (e :: rest)).Nodup := by
          refine (List.Perm.nodup_iff (hperm.map (fun e => e.2.2))).mpr hinv.q_nodup
        have hu_notin_rest : e.2.2 ∉ rest.map (fun e => e.2.2) := by
          rw [List.map_cons] at hqmapnd
          exact (List.nodup_cons.mp hqmapnd).1
        have hcmapnd : (List.map (fun e => e.2.1) (e :: rest)).Nodup := by
          refine (List.Perm.nodup_iff (hperm.map (fun e => e.2.1))).mpr hinv.cnt_nodup
        have hc_notin_rest : e.2.1 ∉ rest.map (fun e => e.2.1) := by
          rw [List.map_cons] at hcmapnd
          exact (List.nodup_cons.mp hcmapnd).1
        have hcntlt : ∀ e2 ∈ rest, Box s d e2.2.2 → e.2.1 < e2.2.1 := by
          intro e2 he2 hb2
          have hle := popMin_lex_min st.queue e rest hpop e2 (hrest_sub e2 he2)
          rw [entryLe_iff] at hle
          have hq2 := (hinv.queue_exact e2 (hrest_sub e2 he2)).2
          have hb2e := hb2
          unfold Box at hb2e
          have hk2 : e2.1 = manhatten_distance s d := by omega
          have hcd : e.2.1 ≠ e2.2.1 := by
            intro hcc
            refine hc_notin_rest ?_
            rw [hcc]
            exact List.mem_map_of_mem _ he2
          omega
        have hlvl_le : ∀ e2 ∈ rest, Box s d e2.2.2 →
            manhatten_distance s e.2.2 ≤ manhatten_distance s e2.2.2 := by
          intro e2 he2 hb2
          exact hinv.mono_level e hemem e2 (hrest_sub e2 he2) hubox hb2
            (hcntlt e2 he2 hb2)
        have hmid : AMid n s d e.2.2
            { st with
              quitCalled := st.quitCalled || sigs.headD false
              queue := rest
              open_set := st.open_set.erase e.2.2 } := by
          refine ⟨hinv.g_s, hinv.g_exact, ?_, ?_, ?_, ?_, ?_, ?_, ?_, ?_, ?_, ?_, ?_, ?_,
            hinv.cf_s, hinv.cf_chain, hinv.log_clean, hue1, hubox, hugrid, ?_⟩
          · intro e2 he2
            exact hinv.queue_exact e2 (hrest_sub e2 he2)
          · intro x
            dsimp only
            rw [List.Nodup.mem_erase_iff hinv.vis_nodup]
            constructor
            · rintro ⟨hxu, hxv⟩
              obtain ⟨e2, he2, hev⟩ := (hinv.sync x).mp hxv
              have : e2 ∈ e :: rest := hperm.symm.subset he2
              rcases List.mem_cons.mp this with rfl | he3
              · exact absurd hev.symm (by rw [hev] at hxu ⊢; exact fun hc => hxu hc.symm)
              · exact ⟨e2, he3, hev⟩
            · rintro ⟨e2, he2, hev⟩
              have hxv : x ∈ st.open_set :=
                (hinv.sync x).mpr ⟨e2, hrest_sub e2 he2, hev⟩
              refine ⟨?_, hxv⟩
              intro hxu
              refine hu_notin_rest ?_
              rw [← hxu, ← hev]
              exact List.mem_map_of_mem _ he2
          · exact hinv.vis_nodup.erase _
          · dsimp only
            rw [List.map_cons] at hqmapnd
            exact (List.nodup_cons.mp hqmapnd).2
          · dsimp only
            rw [List.map_cons] at hcmapnd
            exact (List.nodup_cons.mp hcmapnd).2
          · intro e2 he2
            exact hinv.cnt_bound e2 (hrest_sub e2 he2)
          · intro v hv1 hv2 hv3 w hw
            dsimp only at hv1 hv2 ⊢
            have hv2n : v ∉ st.open_set := by
              intro hc
              exact hv2 ((List.Nodup.mem_erase_iff hinv.vis_nodup).mpr ⟨hv3, hc⟩)
            exact hinv.popped_nbrs v hv1 hv2n w hw
          · intro v hv1 hv2 hv3
            dsimp only at hv1 hv2
            have hv2n : v ∉ st.open_set := by
              intro hc
              exact hv2 ((List.Nodup.mem_erase_iff hinv.vis_nodup).mpr ⟨hv3, hc⟩)
            exact hinv.popped_level v hv1 hv2n e hemem hubox
          · intro e1 he1 e2 he2 hb1 hb2 hc
            exact hinv.mono_level e1 (hrest_sub e1 he1) e2 (hrest_sub e2 he2) hb1 hb2 hc
          · intro e2 he2 hb2
            exact hlvl_le e2 he2 hb2
          · intro e2 he2 hb2
            exact hinv.window e hemem e2 (hrest_sub e2 he2) hubox hb2
          · intro w hwb hwg hwl
            dsimp only
            rcases Nat.lt_or_ge (manhatten_distance s w) (manhatten_distance s e.2.2)
              with hlt | hge
            · exact hinv.disc_prefix w hwb hwg e hemem hubox hlt
            · have hweq : manhatten_distance s w = manhatten_distance s e.2.2 := by omega
              by_cases hzero : manhatten_distance s w = 0
              · have hws : s = w := (mh_eq_zero s w).mp hzero
                rw [← hws, hinv.g_s]
                simp
              · have hwns : w ≠ s := by
                  intro hc
                  rw [hc, mh_self] at hzero
                  exact hzero rfl
                obtain ⟨p, hpmem, hplvl⟩ := step_toward hs hwg hwns
                have hadjp := gridNeighbors_adj hwg hpmem
                have hpbox : Box s d p := box_pred hwb hadjp.1 hplvl
                have hpgrid : inGrid n p := hadjp.2
                have hpdisc : st.g_score p ≠ none :=
                  hinv.disc_prefix p hpbox hpgrid e hemem hubox (by omega)
                have hpopen : p ∉ st.open_set := by
                  intro hc
                  obtain ⟨e2, he2, hev⟩ := (hinv.sync p).mp hc
                  have hb2 : Box s d e2.2.2 := by rw [hev]; exact hpbox
                  have hpne : p ≠ e.2.2 := by
                    intro hc2
                    rw [hc2] at hplvl
                    omega
                  have he2r : e2 ∈ rest := by
                    have h3 := hperm.symm.subset he2
                    rcases List.mem_cons.mp h3 with h4 | h4
                    · exfalso
                      apply hpne
                      rw [← hev, h4]
                    · exact h4
                  have hlle := hlvl_le e2 he2r hb2
                  rw [hev] at hlle
                  omega
                exact hinv.popped_nbrs p hpdisc hpopen w
                  (gridNeighbors_symm hwg hpgrid hpmem)
          · intro v hv1 hv2 hv3
            dsimp only at hv3
            rcases mh_adj s e.2.2 v hv1 with h | h
            · exact h
            · exfalso
              have hvbox : Box s d v := box_pred hubox hv1 (by omega)
              have := hinv.disc_prefix v hvbox hv2 e hemem hubox (by omega)
              exact this hv3
        obtain ⟨hainv, hpop4, hmeas4a⟩ := afold_restore hs hd hud hmid
        set stMid := (gridNeighbors n [] e.2.2).foldl (arelax get_position d e.2.2)
          { st with
            quitCalled := st.quitCalled || sigs.headD false
            queue := rest
            open_set := st.open_set.erase e.2.2 } with hmiddef
        have hinv4 : ∀ (st4 : AState (Nat × Nat)),
            st4.g_score = stMid.g_score → st4.queue = stMid.queue →
            st4.open_set = stMid.open_set → st4.came_from = stMid.came_from →
            st4.count = stMid.count →
            pathMarkCount st4.log = 0 → AInv n s d st4 := by
          intro st4 h1 h2 h3 h4 h5 h6
          refine ⟨?_, ?_, ?_, ?_, ?_, ?_, ?_, ?_, ?_, ?_, ?_, ?_, ?_, ?_, ?_, ?_, h6⟩
          · rw [h1]; exact hainv.g_s
          · rw [h1]; exact hainv.g_exact
          · rw [h1, h2]; exact hainv.queue_exact
          · rw [h2, h3]; exact hainv.sync
          · rw [h3]; exact hainv.vis_nodup
          · rw [h2]; exact hainv.q_nodup
          · rw [h2]; exact hainv.cnt_nodup
          · rw [h2, h5]; exact hainv.cnt_bound
          · rw [h1, h3]; exact hainv.popped_nbrs
          · rw [h1, h2, h3]; exact hainv.popped_level
          · rw [h2]; exact hainv.mono_level
          · rw [h2]; exact hainv.window
          · rw [h1, h2]; exact hainv.disc_prefix
          · rw [h1, h2]; exact hainv.box_live
          · rw [h4]; exact hainv.cf_s
          · rw [h1, h4]; exact hainv.cf_chain
        have hdun4 : ∀ (st4 : AState (Nat × Nat)),
            st4.g_score = stMid.g_score → st4.open_set = stMid.open_set →
            ¬ APopped st4 d := by
          intro st4 h1 h3 hp
          have hpmid : APopped stMid d := by
            obtain ⟨hp1, hp2⟩ := hp
            rw [h1] at hp1
            rw [h3] at hp2
            exact ⟨hp1, hp2⟩
          obtain ⟨hp1, hp2⟩ := hpop4 hpmid
          dsimp only at hp1 hp2
          refine hdun ⟨hp1, ?_⟩
          intro hc
          exact hp2 ((List.Nodup.mem_erase_iff hinv.vis_nodup).mpr
            ⟨fun h => hud h.symm, hc⟩)
        have hlen : st.queue.length = rest.length + 1 := by
          have hpl := hperm.length_eq
          simp only [List.length_cons] at hpl
          omega
        have hmeas4 : ameasure n stMid + 1 ≤ ameasure n st := by
          unfold ameasure
          have hm2 := hmeas4a
          dsimp only at hm2
          omega
        by_cases hus : e.2.2 = s
        · rw [if_pos hus]
          obtain ⟨tr2, stf2, hrec, hcnt⟩ := ih f (by omega) sigs.tail stMid
            hainv (hdun4 stMid rfl rfl) (by omega)
          rw [erase_inst, ← hmiddef, hrec]
          exact ⟨e.2.2 :: tr2, stf2, rfl, hcnt⟩
        · rw [if_neg hus]
          have hlog4 : pathMarkCount (stMid.log ++ [(e.2.2, Mark.visited)]) = 0 := by
            rw [pathMarkCount_append, hainv.log_clean]
            rfl
          obtain ⟨tr2, stf2, hrec, hcnt⟩ := ih f (by omega) sigs.tail
            { stMid with log := stMid.log ++ [(e.2.2, Mark.visited)] }
            (hinv4 _ rfl rfl rfl rfl rfl hlog4)
            (hdun4 _ rfl rfl)
            (by
              have hsame : ameasure n
                  { stMid with log := stMid.log ++ [(e.2.2, Mark.visited)] } =
                  ameasure n stMid := rfl
              omega)
          rw [erase_inst, ← hmiddef, hrec]
          exact ⟨e.2.2 :: tr2, stf2, rfl, hcnt⟩

/-- C4: on the wall-free n by n grid, for every start and destination, every
signal sequence and any fuel covering the run, both `dijkstra` and
`a_star_search` return `True` and their path reconstructions issue exactly
`manhatten_distance start destination` `make_path` calls: both algorithms
find a path of the same, optimal length — the Manhattan distance (8 on the
5 by 5 grid between (0,0) and (4,4)). -/
theorem dijkstra_a_star_shortest_path {n : Nat} {s d : Nat × Nat}
    (hs : inGrid n s) (hd : inGrid n d) (fuel : Nat) (sigs : List Bool)
    (hfuel : n * n + 2 * n + 1 ≤ fuel) :
    (∃ tr stf, dijkstra (gridNeighbors n []) s d fuel sigs = some (true, tr, stf) ∧
      pathMarkCount stf.log = manhatten_distance s d) ∧
    (∃ tr stf, a_star_search get_position (gridNeighbors n []) s d fuel sigs =
        some (true, tr, stf) ∧
      pathMarkCount stf.log = manhatten_distance s d) := by
  have hn : 1 ≤ n := by
    obtain ⟨h1, h2⟩ := hs
    omega
  have hMb : manhatten_distance s d + 2 ≤ 2 * n := mh_bound hs hd
  have hclen : ∀ (p : Nat × Nat → Bool), (cells n).countP p ≤ n * n := by
    intro p
    rw [List.countP_eq_length_filter]
    have h1 := List.length_filter_le p (cells n)
    rw [cells_length] at h1
    exact h1
  constructor
  · have hinv0 : DInv n s (dinit s) := by
      refine ⟨?_, ?_, ?_, ?_, ?_, ?_, ?_, ?_, ?_, ?_⟩
      · show (if s = s then some 0 else none) = some 0
        rw [if_pos rfl]
      · intro v k hk
        simp only [dinit] at hk
        by_cases hv : v = s
        · rw [if_pos hv] at hk
          cases hk
          rw [hv, mh_self]
          exact ⟨rfl, hv ▸ hs⟩
        · rw [if_neg hv] at hk
          cases hk
      · intro e he
        simp only [dinit] at he
        rcases List.mem_singleton.mp he with rfl
        refine ⟨?_, ?_⟩
        · show (if s = s then some 0 else none) = some 0
          rw [if_pos rfl]
        · show (0 : Nat) = manhatten_distance s s
          rw [mh_self]
      · intro x
        simp only [dinit]
        constructor
        · intro hx
          rcases List.mem_singleton.mp hx with rfl
          exact ⟨(0, 0, x), List.mem_singleton.mpr rfl, rfl⟩
        · rintro ⟨e, he, hev⟩
          rcases List.mem_singleton.mp he with rfl
          rw [← hev]
          exact List.mem_singleton.mpr rfl
      · simp [dinit]
      · simp [dinit]
      · intro v hv1 hv2 w hw
        exfalso
        apply hv2
        simp only [dinit] at hv1 ⊢
        by_cases hv : v = s
        · rw [hv]
          exact List.mem_singleton.mpr rfl
        · rw [if_neg hv] at hv1
          exact absurd rfl hv1
      · rfl
      · intro v k hv hk
        exfalso
        simp only [dinit] at hk
        rw [if_neg hv] at hk
        cases hk
      · rfl
    have hnp : ¬ Popped (dinit s) d := by
      rintro ⟨h1, h2⟩
      apply h2
      simp only [dinit] at h1 ⊢
      by_cases hv : d = s
      · rw [hv]
        exact List.mem_singleton.mpr rfl
      · rw [if_neg hv] at h1
        exact absurd rfl h1
    have hmeas : dmeasure n (dinit s) + manhatten_distance s d + 2 ≤ fuel := by
      unfold dmeasure
      have h1 := hclen (fun v => ((dinit s).dist v).isNone)
      have h2 : (dinit s).queue.length = 1 := rfl
      omega
    exact dloop_optimal hs hd fuel sigs (dinit s) hinv0 hnp hmeas
  · by_cases hsd : s = d
    · subst hsd
      obtain ⟨f1, rfl⟩ : ∃ f1, fuel = f1 + 1 := ⟨fuel - 1, by omega⟩
      obtain ⟨f2, rfl⟩ : ∃ f2, f1 = f2 + 1 := ⟨f1 - 1, by omega⟩
      show ∃ tr stf, aloop get_position (gridNeighbors n []) s s (f2 + 1 + 1) sigs
          (ainit get_position s s) = some (true, tr, stf) ∧
          pathMarkCount stf.log = manhatten_distance s s
      rw [aloop_succ]
      have hpop : popMin (ainit get_position (s : Nat × Nat) s).queue =
          some ((0, 0, s), []) := rfl
      rw [hpop]
      dsimp only
      have hss : (((0, 0, s) : Nat × Nat × (Nat × Nat))).2.2 = s := rfl
      rw [if_pos hss]
      have hrl : reconstructLoop
          (ainit get_position (s : Nat × Nat) s).came_from (f2 + 1) s = some [] := by
        rw [reconstructLoop]
        have hcf : cfFind (ainit get_position (s : Nat × Nat) s).came_from s = none := rfl
        rw [hcf]
      rw [hrl]
      refine ⟨[s], _, rfl, ?_⟩
      rw [mh_self]
      rfl
    · obtain ⟨f1, rfl⟩ : ∃ f1, fuel = f1 + 1 := ⟨fuel - 1, by omega⟩
      show ∃ tr stf, aloop get_position (gridNeighbors n []) s d (f1 + 1) sigs
          (ainit get_position s d) = some (true, tr, stf) ∧
          pathMarkCount stf.log = manhatten_distance s d
      rw [aloop_succ]
      have hpop : popMin (ainit get_position (s : Nat × Nat) d).queue =
          some ((0, 0, s), []) := rfl
      rw [hpop]
      simp only [ainit]
      dsimp only
      rw [if_neg hsd]
      rw [if_true]
      rw [erase_inst]
      have hes : ([s] : List (Nat × Nat)).erase s = [] := by simp
      rw [hes]
      have hmid0 : AMid n s d s
          { count := 0, queue := [], open_set := ([] : List (Nat × Nat)),
            came_from := [],
            g_score := fun v => if v = s then some 0 else none,
            f_score := fun v => if v = s then
              some (manhatten_distance (get_position s) (get_position d)) else none,
            log := [], quitCalled := false || sigs.headD false } := by
        refine ⟨?_, ?_, ?_, ?_, ?_, ?_, ?_, ?_, ?_, ?_, ?_, ?_, ?_, ?_, ?_, ?_, ?_,
          ?_, ?_, ?_, ?_⟩
        · show (if s = s then some 0 else none) = some 0
          rw [if_pos rfl]
        · intro v k hk
          dsimp only at hk
          by_cases hv : v = s
          · rw [if_pos hv] at hk
            cases hk
            rw [hv, mh_self]
            exact ⟨rfl, hv ▸ hs⟩
          · rw [if_neg hv] at hk
            cases hk
        · intro e he
          cases he
        · intro x
          constructor
          · intro hx
            cases hx
          · rintro ⟨e, he, hev⟩
            cases he
        · exact List.nodup_nil
        · simp
        · simp
        · intro e he
          cases he
        · intro v hv1 hv2 hv3 w hw
          exfalso
          apply hv1
          dsimp only
          rw [if_neg hv3]
        · intro v hv1 hv2 hv3
          exfalso
          apply hv1
          dsimp only
          rw [if_neg hv3]
        · intro e1 he1
          cases he1
        · intro e he
          cases he
        · intro e he
          cases he
        · intro w hwb hwg hwl
          rw [mh_self] at hwl
          have hws : s = w := (mh_eq_zero s w).mp (by omega)
          dsimp only
          rw [if_pos hws.symm]
          simp
        · rfl
        · intro v k hv hk
          dsimp only at hk
          rw [if_neg hv] at hk
          cases hk
        · rfl
        · dsimp only
          rw [if_pos rfl, mh_self]
        · exact box_self s d
        · exact hs
        · intro v hv1 hv2 hv3
          rcases mh_adj s s v hv1 with h | h
          · exact h
          · rw [mh_self] at h
            omega
      obtain ⟨hainv, hpop4, hmeas4a⟩ := afold_restore hs hd hsd hmid0
      obtain ⟨tr2, stf2, hrec, hcnt⟩ := aloop_optimal hs hd f1 sigs.tail
        ((gridNeighbors n [] s).foldl (arelax get_position d s)
          { count := 0, queue := [], open_set := ([] : List (Nat × Nat)),
            came_from := [],
            g_score := fun v => if v = s then some 0 else none,
            f_score := fun v => if v = s then
              some (manhatten_distance (get_position s) (get_position d)) else none,
            log := [], quitCalled := false || sigs.headD false })
        hainv
        (by
          intro hp
          obtain ⟨hp1, hp2⟩ := hpop4 hp
          dsimp only at hp1
          rw [if_neg (fun hds => hsd hds.symm)] at hp1
          exact hp1 rfl)
        (by
          unfold ameasure
          have hm2 := hmeas4a
          dsimp only at hm2
          simp only [List.length_nil] at hm2
          have h1 := hclen (fun v => (if v = s then some 0 else (none : Option Nat)).isNone)
          omega)
      rw [hrec]
      exact ⟨s :: tr2, stf2, rfl, hcnt⟩

/-- C4 witness: the 5 by 5 wall-free grid with start (0,0) and destination
(4,4): both algorithms succeed, issuing exactly 8 path marks — the Manhattan
distance between the endpoints. -/
theorem dijkstra_a_star_shortest_path_witness :
    inGrid 5 (0, 0) ∧ inGrid 5 (4, 4) ∧ 5 * 5 + 2 * 5 + 1 ≤ 36 ∧
    manhatten_distance (0, 0) (4, 4) = 8 ∧
    ((∃ tr stf, dijkstra (gridNeighbors 5 []) (0, 0) (4, 4) 36 [] =
        some (true, tr, stf) ∧
        pathMarkCount stf.log = manhatten_distance (0, 0) (4, 4)) ∧
     (∃ tr stf, a_star_search get_position (gridNeighbors 5 []) (0, 0) (4, 4) 36 [] =
          some (true, tr, stf) ∧
        pathMarkCount stf.log = manhatten_distance (0, 0) (4, 4))) :=
  ⟨by decide, by decide, by decide, by decide,
    dijkstra_a_star_shortest_path (by decide) (by decide) 36 [] (by decide)⟩

end Pathfinding
